import Mathlib

/-!
Verification development for the DubStack browser TTS pipeline.

The source is TypeScript running on a JavaScript engine, so strings are
modelled as their sequences of UTF-16 code units (a JavaScript string's
length and indexing are code-unit based).  Pure functions of the source
are translated directly; calls into external components (the ONNX
inference engine, Math.random, String.prototype.normalize) are modelled
as parameters or documented boundary functions.  Loops whose termination
rests on a shrinking string are given an explicit fuel argument that is
always instantiated large enough for the loop to run to completion.
-/

set_option maxRecDepth 8192

namespace DubStack

/-- A JavaScript string: its sequence of UTF-16 code units. -/
abbrev JStr := List Nat

/-- UTF-16 code units of a single character (astral characters become a
surrogate pair, exactly as a JavaScript string stores them). -/
def charUnits (c : Char) : List Nat :=
  let n := c.toNat
  if n < 0x10000 then [n]
  else [0xD800 + (n - 0x10000) / 0x400, 0xDC00 + (n - 0x10000) % 0x400]

/-- Encode a Lean string as JavaScript UTF-16 code units. -/
def toU (s : String) : JStr := (s.data.map charUnits).flatten

/-- The ECMAScript regex whitespace class (backslash-s): tab, line feed,
vertical tab, form feed, carriage return, space, NBSP, Ogham space mark,
the U+2000 to U+200A range, line and paragraph separators, narrow NBSP,
medium mathematical space, ideographic space and the BOM. -/
def isJsWS (c : Nat) : Bool :=
  c == 0x9 || c == 0xA || c == 0xB || c == 0xC || c == 0xD || c == 0x20 ||
  c == 0xA0 || c == 0x1680 || (0x2000 ≤ c && c ≤ 0x200A) || c == 0x2028 ||
  c == 0x2029 || c == 0x202F || c == 0x205F || c == 0x3000 || c == 0xFEFF

/-- JavaScript String.prototype.trim: drop leading and trailing whitespace. -/
def jsTrim (s : JStr) : JStr :=
  ((s.dropWhile isJsWS).reverse.dropWhile isJsWS).reverse

/-- Does the pattern occur at the very start of the string? -/
def isStart : JStr → JStr → Bool
  | [], _ => true
  | _ :: _, [] => false
  | p :: ps, c :: cs => p == c && isStart ps cs

/-- Does the pattern occur somewhere in the string (String.prototype.includes)? -/
def hasSub (pat : JStr) : JStr → Bool
  | [] => pat.isEmpty
  | c :: rest => isStart pat (c :: rest) || hasSub pat rest

/-- Worker for String.prototype.replaceAll with a literal pattern (also the
behaviour of String.replace with a global regex whose pattern is a literal):
scan left to right, replace non-overlapping occurrences, never rescan the
replacement.  The fuel bounds the number of characters consumed; the callers
pass the string length, which always suffices because every step consumes at
least one character of the remaining string. -/
def replaceAllGo (pat rep : JStr) : Nat → JStr → JStr
  | 0, s => s
  | fuel + 1, s =>
    match s with
    | [] => []
    | c :: rest =>
      if !pat.isEmpty && isStart pat (c :: rest) then
        rep ++ replaceAllGo pat rep fuel ((c :: rest).drop pat.length)
      else
        c :: replaceAllGo pat rep fuel rest

/-- String.prototype.replaceAll with a literal (non-empty) pattern. -/
def replaceAll (pat rep s : JStr) : JStr := replaceAllGo pat rep s.length s

/-- Apply a replacement table entry by entry, in insertion order, exactly as
the source iterates Object.entries of its replacement record. -/
def applyTable (tbl : List (JStr × JStr)) (s : JStr) : JStr :=
  tbl.foldl (fun acc kv => replaceAll kv.1 kv.2 acc) s

/-- The fixed character substitution table shared by both normalizers:
en dash, non-breaking hyphen and em dash to hyphen; macron and underscore to
space; curly double and single quotes to their ASCII forms; acute accent and
backtick to apostrophe; brackets, pipe, slash, hash and arrows to space. -/
def replacements : List (JStr × JStr) :=
  [([0x2013], [0x2D]), ([0x2011], [0x2D]), ([0x2014], [0x2D]),
   ([0xAF], [0x20]), ([0x5F], [0x20]),
   ([0x201C], [0x22]), ([0x201D], [0x22]), ([0x2018], [0x27]), ([0x2019], [0x27]),
   ([0xB4], [0x27]), ([0x60], [0x27]),
   ([0x5B], [0x20]), ([0x5D], [0x20]), ([0x7C], [0x20]), ([0x2F], [0x20]),
   ([0x23], [0x20]), ([0x2192], [0x20]), ([0x2190], [0x20])]

/-- Expression expansion table shared by both normalizers. -/
def exprReplacements : List (JStr × JStr) :=
  [([0x40], toU " at "), (toU "e.g.,", toU "for example, "), (toU "i.e.,", toU "that is, ")]

/-- The seven space-before-punctuation fixes, in source order: space before
comma, period, bang, question mark, semicolon, colon and apostrophe. -/
def spacingFixes : List (JStr × JStr) :=
  [([0x20, 0x2C], [0x2C]), ([0x20, 0x2E], [0x2E]), ([0x20, 0x21], [0x21]),
   ([0x20, 0x3F], [0x3F]), ([0x20, 0x3B], [0x3B]), ([0x20, 0x3A], [0x3A]),
   ([0x20, 0x27], [0x27])]

def isHiSurr (c : Nat) : Bool := 0xD800 ≤ c && c ≤ 0xDBFF

def isLoSurr (c : Nat) : Bool := 0xDC00 ≤ c && c ≤ 0xDFFF

/-- The standalone normalizer's surrogate removal: the code-unit regex
matching a high surrogate followed by a low surrogate, globally deleted. -/
def stripSurrogates : JStr → JStr
  | [] => []
  | [c] => [c]
  | c1 :: c2 :: rest =>
    if isHiSurr c1 && isLoSurr c2 then stripSurrogates rest
    else c1 :: stripSurrogates (c2 :: rest)

/-- Code points matched by the worker normalizer's emoji character class. -/
def emojiCP (n : Nat) : Bool :=
  (0x1F600 ≤ n && n ≤ 0x1F64F) || (0x1F300 ≤ n && n ≤ 0x1F5FF) ||
  (0x1F680 ≤ n && n ≤ 0x1F6FF) || (0x1F700 ≤ n && n ≤ 0x1F77F) ||
  (0x1F780 ≤ n && n ≤ 0x1F7FF) || (0x1F800 ≤ n && n ≤ 0x1F8FF) ||
  (0x1F900 ≤ n && n ≤ 0x1F9FF) || (0x1FA00 ≤ n && n ≤ 0x1FA6F) ||
  (0x1FA70 ≤ n && n ≤ 0x1FAFF) || (0x2600 ≤ n && n ≤ 0x26FF) ||
  (0x2700 ≤ n && n ≤ 0x27BF) || (0x1F1E6 ≤ n && n ≤ 0x1F1FF)

/-- The worker normalizer's emoji removal: a unicode-mode regex, so surrogate
pairs are decoded to code points before the class is tested; matched code
points are deleted (deleting a run of them one by one is the same as deleting
the run at once, since the replacement is empty). -/
def stripEmoji : JStr → JStr
  | [] => []
  | [c1] => if isHiSurr c1 then [c1] else if emojiCP c1 then [] else [c1]
  | c1 :: c2 :: rest2 =>
    if isHiSurr c1 then
      if isLoSurr c2 then
        if emojiCP (0x10000 + (c1 - 0xD800) * 0x400 + (c2 - 0xDC00)) then
          stripEmoji rest2
        else c1 :: c2 :: stripEmoji rest2
      else c1 :: stripEmoji (c2 :: rest2)
    else if emojiCP c1 then stripEmoji (c2 :: rest2) else c1 :: stripEmoji (c2 :: rest2)

/-- The standalone normalizer deletes the whole combining diacritics block
U+0300 to U+036F. -/
def stripCombiningFull (s : JStr) : JStr :=
  s.filter (fun c => !(0x300 ≤ c && c ≤ 0x36F))

/-- The worker normalizer deletes only this explicit list of combining marks
(it omits U+0300, U+0301, U+0309 and others). -/
def combiningList : List Nat :=
  [0x302, 0x303, 0x304, 0x305, 0x306, 0x307, 0x308, 0x30A, 0x30B, 0x30C,
   0x327, 0x328, 0x329, 0x32A, 0x32B, 0x32C, 0x32D, 0x32E, 0x32F]

def stripCombiningListed (s : JStr) : JStr :=
  s.filter (fun c => !(combiningList.contains c))

/-- Both normalizers delete the decorative symbols: black heart suit, white
star, white heart suit, copyright sign and backslash. -/
def stripSymbols (s : JStr) : JStr :=
  s.filter (fun c => !(c == 0x2665 || c == 0x2606 || c == 0x2661 || c == 0xA9 || c == 0x5C))

/-- Collapse every maximal whitespace run to a single space
(String.replace of the regex backslash-s-plus, globally, with a space). -/
def collapseWS : Nat → JStr → JStr
  | 0, s => s
  | fuel + 1, s =>
    match s with
    | [] => []
    | c :: rest =>
      if isJsWS c then 0x20 :: collapseWS fuel (rest.dropWhile isJsWS)
      else c :: collapseWS fuel rest

/-- One pass of the duplicate-quote removal body. -/
def dedupStep (q : Nat) (s : JStr) : JStr := replaceAll [q, q] [q] s

/-- The while loop of the duplicate-quote removal: repeat replaceAll of the
doubled quote while the string still contains one.  Each pass with an
occurrence strictly shortens the string, so fuel equal to the string length
always lets the loop run to completion. -/
def dedupLoop (q : Nat) : Nat → JStr → JStr
  | 0, s => s
  | fuel + 1, s => if hasSub [q, q] s then dedupLoop q fuel (dedupStep q s) else s

def dedupQuotes (q : Nat) (s : JStr) : JStr := dedupLoop q s.length s

/-- The terminal punctuation class tested before appending a period, in
source order (the apostrophe appears twice in the source class). -/
def tailPunct : List Nat :=
  [0x2E, 0x21, 0x3F, 0x3B, 0x3A, 0x2C, 0x27, 0x22, 0x27, 0x29, 0x5D, 0x7D,
   0x2026, 0x3002, 0x300D, 0x300F, 0x3011, 0x3009, 0x300B, 0x203A, 0xBB]

def hasTailPunct (s : JStr) : Bool :=
  match s.getLast? with
  | some c => tailPunct.contains c
  | none => false

def addTail (s : JStr) : JStr := if hasTailPunct s then s else s ++ [0x2E]

/-- The tail of both normalizers, identical character for character in the
two sources: expression expansion, spacing fixes, duplicate-quote loops for
double quote, apostrophe and backtick, whitespace collapse, trim, and the
terminal-punctuation fallback. -/
def finishCommon (s0 : JStr) : JStr :=
  let s1 := applyTable exprReplacements s0
  let s2 := applyTable spacingFixes s1
  let s3 := dedupQuotes 0x22 s2
  let s4 := dedupQuotes 0x27 s3
  let s5 := dedupQuotes 0x60 s4
  let s6 := jsTrim (collapseWS s5.length s5)
  addTail s6

/-- The standalone UnicodeProcessor.preprocessText (top of the worker-adjacent
module): NFKD normalize, remove surrogate pairs, apply the substitution
table, strip the whole U+0300 to U+036F combining block, strip symbols, then
the common tail.  The nfkd parameter models the external ECMAScript builtin
String.prototype.normalize with the NFKD form, which is not code of this
repository. -/
def preprocessTextA (nfkd : JStr → JStr) (text : JStr) : JStr :=
  let s1 := nfkd text
  let s2 := stripSurrogates s1
  let s3 := applyTable replacements s2
  let s4 := stripCombiningFull s3
  let s5 := stripSymbols s4
  finishCommon s5

/-- The worker UnicodeProcessor.preprocessText (both in App.tsx and in the
SupertonicTTS engine class): NFKD normalize, remove emoji code-point ranges,
apply the substitution table, strip the explicit combining-mark list, strip
symbols, then the common tail. -/
def preprocessTextW (nfkd : JStr → JStr) (text : JStr) : JStr :=
  let s1 := nfkd text
  let s2 := stripEmoji s1
  let s3 := applyTable replacements s2
  let s4 := stripCombiningListed s3
  let s5 := stripSymbols s4
  finishCommon s5

/-- Index of the last line feed in a list, if any. -/
def lastNL : JStr → Option Nat
  | [] => none
  | c :: rest =>
    match lastNL rest with
    | some j => some (j + 1)
    | none => if c == 0x0A then some 0 else none

/-- JavaScript String.split on the paragraph regex (line feed, then any
whitespace, then one or more line feeds).  A greedy match starting at a line
feed extends exactly to the last line feed inside the maximal whitespace run
that follows, and exists only if that run contains another line feed.  Fuel
bounds the characters consumed; length plus one always suffices. -/
def splitParaGo : Nat → JStr → JStr → List JStr
  | 0, s, acc => [acc ++ s]
  | fuel + 1, s, acc =>
    match s with
    | [] => [acc]
    | c :: rest =>
      if c == 0x0A then
        match lastNL (rest.takeWhile isJsWS) with
        | some j => acc :: splitParaGo fuel (rest.drop (j + 1)) []
        | none => splitParaGo fuel rest (acc ++ [c])
      else splitParaGo fuel rest (acc ++ [c])

def splitPara (s : JStr) : List JStr := splitParaGo (s.length + 1) s []

/-- JavaScript String.split on the sentence regex (lookbehind for period,
bang or question mark, then one or more whitespace characters).  The prev
argument carries the character before the scan position; after a separator
the next character is never whitespace, so a space sentinel is passed. -/
def splitSentGo : Nat → Nat → JStr → JStr → List JStr
  | 0, _, s, acc => [acc ++ s]
  | fuel + 1, prev, s, acc =>
    match s with
    | [] => [acc]
    | c :: rest =>
      if isJsWS c && (prev == 0x2E || prev == 0x21 || prev == 0x3F) then
        acc :: splitSentGo fuel 0x20 (rest.dropWhile isJsWS) []
      else splitSentGo fuel c rest (acc ++ [c])

def splitSent (s : JStr) : List JStr := splitSentGo (s.length + 1) 0x20 s []

/-- One step of the greedy sentence-packing loop of chunkText: append the
sentence to the current chunk when the running length plus one separator
stays within the limit, otherwise push the trimmed current chunk (if any)
and start over with the overflowing sentence. -/
def packStep (maxLen : Nat) (st : List JStr × JStr) (s : JStr) : List JStr × JStr :=
  let chunks := st.1
  let cur := st.2
  if cur.length + s.length + 1 ≤ maxLen then
    (chunks, cur ++ (if cur.isEmpty then [] else [0x20]) ++ s)
  else
    ((if cur.isEmpty then chunks else chunks ++ [jsTrim cur]), s)

/-- The per-paragraph part of chunkText: fold the sentences through the
packing loop and push the final chunk if non-empty. -/
def chunkPara (maxLen : Nat) (sentences : List JStr) : List JStr :=
  let st := sentences.foldl (packStep maxLen) ([], [])
  if st.2.isEmpty then st.1 else st.1 ++ [jsTrim st.2]

/-- chunkText: trim, split into paragraphs, keep the ones that are not
whitespace-only, split each into sentences and pack them greedily; when no
chunk at all was produced, fall back to the whole trimmed text as the single
unit.  The maximum length defaults to 300 in the worker and 50 in the engine
class; it is a parameter here. -/
def chunkText (text : JStr) (maxLen : Nat) : List JStr :=
  let paragraphs := (splitPara (jsTrim text)).filter (fun p => !(jsTrim p).isEmpty)
  let chunks := paragraphs.foldl
    (fun acc p =>
      acc ++ (if (jsTrim p).isEmpty then [] else chunkPara maxLen (splitSent (jsTrim p)))) []
  if chunks.isEmpty then [jsTrim text] else chunks

/-! ## Engine configuration, tensors and the inference-side helpers -/

/-- The tts.json engine configuration: sample rate and base chunk size of the
autoencoder, chunk compression factor and latent dimension of the
text-to-latent model.  Loaded once and read-only. -/
structure TTSConfig where
  sample_rate : Nat
  base_chunk_size : Nat
  chunk_compress_factor : Nat
  latent_dim : Nat

/-- JavaScript Math.max over a spread array.  The empty case yields negative
infinity in JavaScript; every call site here guarantees a non-empty list, so
the empty case is given an arbitrary value. -/
def jsMaxQ : List ℚ → ℚ
  | [] => 0
  | a :: l => l.foldl max a

def jsMaxZ : List ℤ → ℤ
  | [] => 0
  | a :: l => l.foldl max a

/-- lengthToMask: binary validity mask of shape batch by one by maxLen, with
ones strictly below each row's length.  The maxLen argument is combined with
the JavaScript or-operator, so an explicit zero falls back to the maximum of
the lengths; all call sites in the source pass null (none here). -/
def lengthToMask (lengths : List ℤ) (maxLen : Option ℤ) : List (List (List ℚ)) :=
  let mLen : Nat :=
    (match maxLen with
     | some m => if m == 0 then jsMaxZ lengths else m
     | none => jsMaxZ lengths).toNat
  lengths.map (fun len =>
    [(List.range mLen).map (fun (j : Nat) => if (j : ℤ) < len then (1 : ℚ) else 0)])

/-- The latent length a wav length occupies: Math.floor of
(len + latentSize - 1) / latentSize. -/
def latentLenOfWav (w : ℤ) (latentSize : Nat) : ℤ :=
  ⌊((w : ℚ) + (latentSize : ℚ) - 1) / (latentSize : ℚ)⌋

/-- getLatentMask: convert per-row wav lengths to latent lengths and build
their validity mask. -/
def getLatentMask (wavLengths : List ℤ) (baseChunkSize chunkCompressFactor : Nat) :
    List (List (List ℚ)) :=
  lengthToMask (wavLengths.map (fun w => latentLenOfWav w (baseChunkSize * chunkCompressFactor)))
    none

/-- The maximal wav length of a duration batch: Math.max of the durations
times the sample rate (a real number; it is not floored). -/
def wavLenMax (cfg : TTSConfig) (duration : List ℚ) : ℚ :=
  jsMaxQ duration * (cfg.sample_rate : ℚ)

/-- The per-row floored wav lengths. -/
def wavLengths (cfg : TTSConfig) (duration : List ℚ) : List ℤ :=
  duration.map (fun d => ⌊d * (cfg.sample_rate : ℚ)⌋)

/-- The noise tensor's time length: Math.floor of
(wavLenMax + chunkSize - 1) / chunkSize with chunkSize the base chunk size
times the compression factor.  Note the numerator is a real number. -/
def latentLenZ (cfg : TTSConfig) (duration : List ℚ) : ℤ :=
  let chunkSize := cfg.base_chunk_size * cfg.chunk_compress_factor
  ⌊(wavLenMax cfg duration + (chunkSize : ℚ) - 1) / (chunkSize : ℚ)⌋

/-- The noise tensor's channel dimension: configured latent dimension times
the compression factor. -/
def latentDimOf (cfg : TTSConfig) : Nat := cfg.latent_dim * cfg.chunk_compress_factor

/-- sampleNoisyLatent.  The Box-Muller draw from two Math.random values is
external nondeterminism, modelled as the noise parameter indexed by batch,
channel and time; the loop bounds and the mask application are translated
directly.  The returned pair is the masked noise tensor and the latent mask;
the in-place multiplication of the source is expressed by building each
masked entry from its noise value and its mask value. -/
def sampleNoisyLatent (noise : Nat → Nat → Nat → ℚ) (cfg : TTSConfig) (duration : List ℚ) :
    List (List (List ℚ)) × List (List (List ℚ)) :=
  let L := (latentLenZ cfg duration).toNat
  let mask := getLatentMask (wavLengths cfg duration) cfg.base_chunk_size cfg.chunk_compress_factor
  let masked := (List.range duration.length).map (fun b =>
    let mrow := (mask.getD b []).getD 0 []
    (List.range (latentDimOf cfg)).map (fun dch =>
      (List.range L).map (fun t =>
        let v := noise b dch t
        if t < mrow.length then v * mrow.getD t 0 else v)))
  (masked, mask)

/-! ## Voice style loading -/

/-- A nested numeric JSON array as found in a voice style bundle. -/
inductive NestedNum where
  | leaf : ℚ → NestedNum
  | arr : List NestedNum → NestedNum

/-- flattenArray: flatten a nested array depth first, leaves in order. -/
def flattenArray : NestedNum → List ℚ
  | NestedNum.leaf x => [x]
  | NestedNum.arr [] => []
  | NestedNum.arr (y :: ys) => flattenArray y ++ flattenArray (NestedNum.arr ys)

/-- A tensor entry of a voice style bundle: declared dims plus nested data. -/
structure TensorSpec where
  dims : List Nat
  data : NestedNum

/-- The per-voice bundle with its two conditioning tensors. -/
structure VoiceStyleData where
  style_ttl : TensorSpec
  style_dp : TensorSpec

inductive TTSError where
  | shapeMismatch (msg : String)
  | inference (msg : String)
deriving DecidableEq

/-- An in-memory float tensor: flat data plus shape. -/
structure TensorQ where
  data : List ℚ
  dims : List Nat
deriving DecidableEq

/-- Modelled from the spec: the tensor constructor of the external inference
engine (ort.Tensor of onnxruntime-web), which is not code of this repository.
Sections 4.4 and 6 of the spec require voice style loading to fail with a
ShapeMismatch error when the flattened element count differs from the product
of the declared dims, and fix the engine boundary to validated float tensors;
the constructor therefore checks that the data length equals the product of
the dims and rejects the tensor otherwise (it never truncates or pads). -/
def ortTensor (data : List ℚ) (dims : List Nat) : Except TTSError TensorQ :=
  if data.length = dims.foldl (fun a b => a * b) 1 then Except.ok ⟨data, dims⟩
  else Except.error (TTSError.shapeMismatch "tensor size does not match data length")

structure Style where
  ttl : TensorQ
  dp : TensorQ

/-- loadVoiceStyle: read dims one and two of each entry, flatten the nested
data, and build the two tensors with a leading batch dimension of one. -/
def loadVoiceStyle (vsd : VoiceStyleData) : Except TTSError Style := do
  let ttlDim1 := vsd.style_ttl.dims.getD 1 0
  let ttlDim2 := vsd.style_ttl.dims.getD 2 0
  let dpDim1 := vsd.style_dp.dims.getD 1 0
  let dpDim2 := vsd.style_dp.dims.getD 2 0
  let ttlData := flattenArray vsd.style_ttl.data
  let dpData := flattenArray vsd.style_dp.data
  let ttl ← ortTensor ttlData [1, ttlDim1, ttlDim2]
  let dp ← ortTensor dpData [1, dpDim1, dpDim2]
  return ⟨ttl, dp⟩

/-! ## Duration stage and timeline stitching -/

/-- The duration-stage tail of infer: read the duration output of the
duration predictor run (accessing the data of a missing output throws), then
divide every value by the speed factor in place.  There is no positivity
check and no retry. -/
def durationStage (dpDuration : Option (List ℚ)) (speed : ℚ) : Except TTSError (List ℚ) :=
  match dpDuration with
  | none => Except.error (TTSError.inference "cannot read data of undefined duration output")
  | some durOnnx => Except.ok (durOnnx.map (fun d => d / speed))

/-- A timestamp entry.  The source field named end is a reserved word here
and is called stop. -/
structure TimestampQ where
  text : JStr
  start : ℚ
  stop : ℚ
deriving DecidableEq

/-- One iteration of the generate loop over text chunks, acting on the state
(timestamps, currentTime, durCat, wavCat-is-null): push the chunk's
timestamp, advance the cursor by the chunk duration plus the inter-chunk
silence, and accumulate the total duration (the first chunk initialises it,
later chunks add their duration plus one silence). -/
def genStep (silence : ℚ) (st : List TimestampQ × ℚ × ℚ × Bool) (u : JStr × ℚ) :
    List TimestampQ × ℚ × ℚ × Bool :=
  let ts := st.1
  let cur := st.2.1
  let dur := st.2.2.1
  let isFirst := st.2.2.2
  (ts ++ [⟨u.1, cur, cur + u.2⟩],
   cur + u.2 + silence,
   if isFirst then u.2 else dur + u.2 + silence,
   false)

/-- The timeline part of generate: fold the units (chunk text paired with its
predicted duration) through the loop, then add the trailing silence to the
total when it is positive and at least one unit produced audio. -/
def generateTimeline (units : List (JStr × ℚ)) (silence endSil : ℚ) :
    List TimestampQ × ℚ :=
  let st := units.foldl (genStep silence) ([], 0, 0, true)
  (st.1, if 0 < endSil ∧ st.2.2.2 = false then st.2.2.1 + endSil else st.2.2.1)

/-- The generate pipeline over an abstract duration oracle: segment the text,
synthesize each chunk (the oracle stands for the external inference engine
returning the chunk's predicted duration) and stitch the timeline. -/
def generateModel (dur : JStr → ℚ) (text : JStr) (maxLen : Nat) (silence endSil : ℚ) :
    List TimestampQ × ℚ :=
  generateTimeline ((chunkText text maxLen).map (fun c => (c, dur c))) silence endSil

/-- How many times generate invokes each engine session: one infer call per
chunk, and each infer runs the duration predictor once, the text encoder
once, the vector estimator once per diffusion step and the vocoder once. -/
structure EngineCalls where
  dp : Nat
  textEnc : Nat
  vectorEst : Nat
  vocoder : Nat
deriving DecidableEq

def generateEngineCalls (text : JStr) (maxLen totalStep : Nat) : EngineCalls :=
  let n := (chunkText text maxLen).length
  ⟨n, n, n * totalStep, n⟩

/-! ## Closed form of the timeline fold -/

/-- The timestamps the generate loop produces from cursor position c. -/
def tsFrom (silence : ℚ) (c : ℚ) : List (JStr × ℚ) → List TimestampQ
  | [] => []
  | u :: us => ⟨u.1, c, c + u.2⟩ :: tsFrom silence (c + u.2 + silence) us

lemma tsFrom_length (silence : ℚ) :
    ∀ (us : List (JStr × ℚ)) (c : ℚ), (tsFrom silence c us).length = us.length
  | [], _ => rfl
  | _ :: us, c => by simp [tsFrom, tsFrom_length silence us]

lemma foldl_genStep_fst (silence : ℚ) :
    ∀ (us : List (JStr × ℚ)) (ts0 : List TimestampQ) (c0 d0 : ℚ) (f0 : Bool),
      (us.foldl (genStep silence) (ts0, c0, d0, f0)).1 = ts0 ++ tsFrom silence c0 us
  | [], ts0, c0, d0, f0 => by simp [tsFrom]
  | u :: us, ts0, c0, d0, f0 => by
    simp only [List.foldl_cons, genStep]
    rw [foldl_genStep_fst silence us]
    simp [tsFrom]

/-- Cursor offset accumulated before unit i. -/
def cumStart (silence : ℚ) (us : List (JStr × ℚ)) (i : Nat) : ℚ :=
  ((us.take i).map (fun u => u.2 + silence)).sum

lemma cumStart_succ (silence : ℚ) (us : List (JStr × ℚ)) (i : Nat) (h : i < us.length) :
    cumStart silence us (i + 1) = cumStart silence us i + ((us.getD i ([], 0)).2 + silence) := by
  unfold cumStart
  rw [List.take_succ, List.getElem?_eq_getElem h]
  simp only [Option.toList_some, List.map_append, List.sum_append, List.map_cons,
    List.map_nil, List.sum_cons, List.sum_nil, List.getD_eq_getElem?_getD,
    List.getElem?_eq_getElem h, Option.getD_some]
  ring

lemma tsFrom_getD (silence : ℚ) :
    ∀ (us : List (JStr × ℚ)) (c : ℚ) (i : Nat), i < us.length →
      (tsFrom silence c us).getD i ⟨[], 0, 0⟩ =
        ⟨(us.getD i ([], 0)).1, c + cumStart silence us i,
          c + cumStart silence us i + (us.getD i ([], 0)).2⟩
  | [], c, i, h => absurd h (by simp)
  | u :: us, c, 0, h => by
    simp [tsFrom, cumStart]
  | u :: us, c, i + 1, h => by
    have h' : i < us.length := by simpa using h
    simp only [tsFrom, List.getD_cons_succ]
    rw [tsFrom_getD silence us _ i h']
    simp only [List.getD_cons_succ, cumStart, List.take_succ_cons, List.map_cons, List.sum_cons]
    refine congrArg₂ (fun a b => TimestampQ.mk _ a b) ?_ ?_ <;> ring

lemma foldl_genStep_dur (silence : ℚ) :
    ∀ (us : List (JStr × ℚ)) (st : List TimestampQ × ℚ × ℚ × Bool), st.2.2.2 = false →
      (us.foldl (genStep silence) st).2.2.1 =
        st.2.2.1 + (us.map (fun u => u.2)).sum + us.length * silence ∧
      (us.foldl (genStep silence) st).2.2.2 = false
  | [], st, h => by simp [h]
  | u :: us, st, h => by
    simp only [List.foldl_cons]
    obtain ⟨h1, h2⟩ := foldl_genStep_dur silence us (genStep silence st u) (by simp [genStep])
    refine ⟨?_, h2⟩
    rw [h1]
    simp only [genStep, h, Bool.false_eq_true, if_false, List.map_cons, List.sum_cons,
      List.length_cons]
    push_cast
    ring

/-- Generic fact: getD over a mapped list evaluated inside its range. -/
lemma getD_map_lt {α β : Type} (f : α → β) (l : List α) (i : Nat) (d : β) (d0 : α)
    (h : i < l.length) : (l.map f).getD i d = f (l.getD i d0) := by
  rw [List.getD_eq_getElem?_getD, List.getElem?_map, List.getElem?_eq_getElem h]
  simp [List.getD_eq_getElem?_getD, List.getElem?_eq_getElem h]

/-- Generic fact: getD over a mapped range evaluated inside its bound. -/
lemma getD_range_map {α : Type} (f : Nat → α) (n i : Nat) (d : α) (h : i < n) :
    ((List.range n).map f).getD i d = f i := by
  rw [List.getD_eq_getElem?_getD, List.getElem?_map, List.getElem?_range h]
  rfl

/-- C1.  For any request whose text segments into N units, the timeline holds
exactly N timestamps and the first starts at zero; for every unit index i
below N (so also for the last one) the timestamp's end is its start plus the
unit's predicted duration and, with non-negative durations, start is at most
end; and whenever a next unit exists its start is this end plus the
inter-unit silence, which with non-negative silence makes the sequence
monotonically non-decreasing. -/
theorem generate_timestamps_spec (text : JStr) (maxLen : Nat) (dur : JStr → ℚ)
    (silence endSil : ℚ) (i : Nat) (hi : i < (chunkText text maxLen).length)
    (hsil : 0 ≤ silence) (hdur : ∀ c, 0 ≤ dur c) :
    (generateModel dur text maxLen silence endSil).1.length = (chunkText text maxLen).length ∧
    ((generateModel dur text maxLen silence endSil).1.getD 0 ⟨[], 0, 0⟩).start = 0 ∧
    ((generateModel dur text maxLen silence endSil).1.getD i ⟨[], 0, 0⟩).stop =
      ((generateModel dur text maxLen silence endSil).1.getD i ⟨[], 0, 0⟩).start +
        dur ((chunkText text maxLen).getD i []) ∧
    ((generateModel dur text maxLen silence endSil).1.getD i ⟨[], 0, 0⟩).start ≤
      ((generateModel dur text maxLen silence endSil).1.getD i ⟨[], 0, 0⟩).stop ∧
    (i + 1 < (chunkText text maxLen).length →
      ((generateModel dur text maxLen silence endSil).1.getD (i + 1) ⟨[], 0, 0⟩).start =
        ((generateModel dur text maxLen silence endSil).1.getD i ⟨[], 0, 0⟩).stop + silence) ∧
    (i + 1 < (chunkText text maxLen).length →
      ((generateModel dur text maxLen silence endSil).1.getD i ⟨[], 0, 0⟩).stop ≤
        ((generateModel dur text maxLen silence endSil).1.getD (i + 1) ⟨[], 0, 0⟩).start) := by
  have hts : (generateModel dur text maxLen silence endSil).1 =
      tsFrom silence 0 ((chunkText text maxLen).map (fun c => (c, dur c))) := by
    simp [generateModel, generateTimeline, foldl_genStep_fst]
  set units := (chunkText text maxLen).map (fun c => (c, dur c)) with hunits
  have hlen : units.length = (chunkText text maxLen).length := by simp [hunits]
  have hiu0 : i < units.length := by rw [hlen]; exact hi
  have h0 : 0 < units.length := Nat.lt_of_le_of_lt (Nat.zero_le _) hiu0
  have hdget : (units.getD i ([], 0)).2 = dur ((chunkText text maxLen).getD i []) := by
    rw [hunits, getD_map_lt (fun c => (c, dur c)) _ i ([], 0) [] (by rwa [hlen] at hiu0)]
  have e0 := tsFrom_getD silence units 0 0 h0
  have ei := tsFrom_getD silence units 0 i hiu0
  have hcum := cumStart_succ silence units i hiu0
  refine ⟨by rw [hts, tsFrom_length, hlen], ?_, ?_, ?_, ?_, ?_⟩
  · rw [hts, e0]
    simp [cumStart]
  · rw [hts, ei, hdget]
  · rw [hts, ei]
    simp only
    have := hdur ((chunkText text maxLen).getD i [])
    rw [← hdget] at this
    linarith
  · intro hnext
    have hiu : i + 1 < units.length := by rw [hlen]; exact hnext
    have ei1 := tsFrom_getD silence units 0 (i + 1) hiu
    rw [hts, ei, ei1, hcum]
    ring
  · intro hnext
    have hiu : i + 1 < units.length := by rw [hlen]; exact hnext
    have ei1 := tsFrom_getD silence units 0 (i + 1) hiu
    rw [hts, ei, ei1, hcum]
    simp only
    linarith

/-- Witness for C1, exercising both a single-unit request (the spec example
text, which fits in one unit at limit 300) and a two-unit request with the
adjacency link. -/
theorem generate_timestamps_spec_witness :
    (generateModel (fun _ => 1) (toU "Hello there. This is a test.") 300 (3 / 10)
      (1 / 2)).1.length = 1 ∧
    ((generateModel (fun _ => 1) (toU "Hello there. This is a test.") 300 (3 / 10)
      (1 / 2)).1.getD 0 ⟨[], 0, 0⟩).start = 0 ∧
    ((generateModel (fun _ => 1) (toU "Hello there. This is a test.") 300 (3 / 10)
      (1 / 2)).1.getD 0 ⟨[], 0, 0⟩).stop =
      ((generateModel (fun _ => 1) (toU "Hello there. This is a test.") 300 (3 / 10)
        (1 / 2)).1.getD 0 ⟨[], 0, 0⟩).start + 1 ∧
    (generateModel (fun _ => 1) (toU "Hi. Bye.") 4 (1 / 2) 0).1.length = 2 ∧
    ((generateModel (fun _ => 1) (toU "Hi. Bye.") 4 (1 / 2) 0).1.getD 1 ⟨[], 0, 0⟩).start =
      ((generateModel (fun _ => 1) (toU "Hi. Bye.") 4 (1 / 2) 0).1.getD 0 ⟨[], 0, 0⟩).stop +
        1 / 2 := by
  have h1 := generate_timestamps_spec (toU "Hello there. This is a test.") 300 (fun _ => 1)
    (3 / 10) (1 / 2) 0 (by decide) (by norm_num) (fun c => by norm_num)
  have h2 := generate_timestamps_spec (toU "Hi. Bye.") 4 (fun _ => 1) (1 / 2) 0 0
    (by decide) (by norm_num) (fun c => by norm_num)
  refine ⟨?_, h1.2.1, ?_, ?_, h2.2.2.2.2.1 (by decide)⟩
  · rw [h1.1]
    decide
  · simpa using h1.2.2.1
  · rw [h2.1]
    decide

/-- C2.  For a non-empty unit list the reported total duration is the sum of
the unit durations plus one inter-unit silence per gap plus the trailing
silence exactly when it is positive. -/
theorem generate_total_duration (units : List (JStr × ℚ)) (silence endSil : ℚ)
    (h : units ≠ []) :
    (generateTimeline units silence endSil).2 =
      (units.map (fun u => u.2)).sum + ((units.length - 1 : ℕ) : ℚ) * silence +
        (if 0 < endSil then endSil else 0) := by
  match units, h with
  | u :: us, _ =>
    obtain ⟨h1, h2⟩ := foldl_genStep_dur silence us (genStep silence ([], 0, 0, true) u)
      (by simp [genStep])
    simp only [generateTimeline, List.foldl_cons]
    rw [show ((genStep silence ([], 0, 0, true) u)).2.2.1 = u.2 by simp [genStep]] at h1
    by_cases he : 0 < endSil
    · simp only [he, h2, true_and, if_true, h1, List.map_cons, List.sum_cons,
        List.length_cons, Nat.add_sub_cancel]
    · simp only [he, h2, false_and, if_false, h1, List.map_cons, List.sum_cons,
        List.length_cons, Nat.add_sub_cancel]
      ring

/-- Witness for C2 at the spec example: durations 1.5 and 2.0, silence 0.3,
no trailing silence; total 3.8 and timestamps start 0 end 1.5, start 1.8
end 3.8. -/
theorem generate_total_duration_witness :
    (generateTimeline [(toU "A", 3 / 2), (toU "B", 2)] (3 / 10) 0).2 = 19 / 5 ∧
    (generateTimeline [(toU "A", 3 / 2), (toU "B", 2)] (3 / 10) 0).1 =
      [⟨toU "A", 0, 3 / 2⟩, ⟨toU "B", 9 / 5, 19 / 5⟩] := by
  constructor
  · have h := generate_total_duration [(toU "A", 3 / 2), (toU "B", 2)] (3 / 10) 0 (by simp)
    rw [h]
    norm_num
  · simp [generateTimeline, genStep]
    norm_num

/-- C4.  Loading a voice style whose flattened element count differs from
dims one times dims two fails with the ShapeMismatch error (the external
tensor constructor validates the size; nothing is truncated or padded). -/
theorem voice_style_shape_guard (vsd : VoiceStyleData)
    (hmis : (flattenArray vsd.style_ttl.data).length ≠
      vsd.style_ttl.dims.getD 1 0 * vsd.style_ttl.dims.getD 2 0) :
    loadVoiceStyle vsd =
      Except.error (TTSError.shapeMismatch "tensor size does not match data length") := by
  simp only [List.getD_eq_getElem?_getD] at hmis
  simp [loadVoiceStyle, ortTensor, hmis, Bind.bind, Except.bind]

/-- Witness for C4: dims one by two by three with only five data elements. -/
theorem voice_style_shape_guard_witness :
    loadVoiceStyle ⟨⟨[1, 2, 3], NestedNum.arr [NestedNum.leaf 1, NestedNum.leaf 2,
        NestedNum.leaf 3, NestedNum.leaf 4, NestedNum.leaf 5]⟩,
      ⟨[1, 1, 1], NestedNum.leaf 0⟩⟩ =
      Except.error (TTSError.shapeMismatch "tensor size does not match data length") := by
  apply voice_style_shape_guard
  simp [flattenArray]

/-- C8 counterexample: a non-positive predicted duration is not rejected; the
duration stage returns it (divided by speed) as a success value instead of a
fatal InferenceError. -/
theorem duration_nonpositive_not_rejected :
    durationStage (some [(-1 : ℚ)]) 1 = Except.ok [-1] := by
  simp [durationStage]

/-- C8 amended.  Every duration value is divided by the speed factor with no
positivity check and no retry; only a missing duration output is fatal (the
property access throws). -/
theorem duration_stage_behavior (raw : List ℚ) (speed : ℚ) :
    durationStage (some raw) speed = Except.ok (raw.map (fun d => d / speed)) ∧
    durationStage none speed =
      Except.error (TTSError.inference "cannot read data of undefined duration output") :=
  ⟨rfl, rfl⟩

/-- C7 counterexample: a whitespace-only request is not rejected before any
engine call; it becomes one empty unit, the normalizer maps it to a lone
period, the duration predictor is invoked once, and one timestamp comes
back. -/
theorem empty_input_ctrex :
    chunkText (toU "  ") 300 = [[]] ∧
    (generateEngineCalls (toU "  ") 300 8).dp = 1 ∧
    preprocessTextW (fun l => l) [] = [0x2E] ∧
    (generateModel (fun _ => (1 : ℚ)) (toU "  ") 300 (3 / 10) (1 / 2)).1.length = 1 := by
  refine ⟨by decide, by decide, by decide, ?_⟩
  simp [generateModel, generateTimeline, foldl_genStep_fst, tsFrom_length]
  decide

/-- C7 amended.  No EmptyInputError exists: any whitespace-only text yields a
single empty unit, the engine sessions are invoked for it (duration
predictor, text encoder and vocoder once each, the vector estimator once per
step), and the pipeline returns one timestamp instead of an error. -/
theorem empty_input_not_rejected (text : JStr) (hws : ∀ c ∈ text, isJsWS c = true) :
    chunkText text 300 = [[]] ∧
    generateEngineCalls text 300 8 = ⟨1, 1, 8, 1⟩ ∧
    ∀ (dur : JStr → ℚ) (silence endSil : ℚ),
      (generateModel dur text 300 silence endSil).1.length = 1 := by
  have htrim : jsTrim text = [] := by
    have h1 : text.dropWhile isJsWS = [] := List.dropWhile_eq_nil_iff.mpr hws
    simp [jsTrim, h1]
  have hchunk : chunkText text 300 = [[]] := by
    unfold chunkText
    rw [htrim]
    decide
  refine ⟨hchunk, ?_, ?_⟩
  · simp [generateEngineCalls, hchunk]
  · intro dur silence endSil
    simp [generateModel, generateTimeline, hchunk, genStep]

/-- Witness for C7 at a concrete whitespace-only input. -/
theorem empty_input_not_rejected_witness :
    chunkText (toU " ") 300 = [[]] ∧ generateEngineCalls (toU " ") 300 8 = ⟨1, 1, 8, 1⟩ := by
  have h := empty_input_not_rejected (toU " ") (by decide)
  exact ⟨h.1, h.2.1⟩

/-! ## Latent length arithmetic -/

/-- For an integer numerator, the source's floor of (n + c - 1) / c equals
the ceiling of n / c. -/
lemma floor_pred_div_eq_ceil (n : ℤ) (c : ℕ) (hc : 0 < c) :
    ⌊((n : ℚ) + (c : ℚ) - 1) / (c : ℚ)⌋ = ⌈(n : ℚ) / (c : ℚ)⌉ := by
  have hc0 : (0 : ℚ) < (c : ℚ) := by exact_mod_cast hc
  set q : ℤ := ⌈(n : ℚ) / (c : ℚ)⌉ with hq
  have hle : (n : ℚ) / (c : ℚ) ≤ (q : ℚ) := Int.le_ceil _
  have hlt : (q : ℚ) < (n : ℚ) / (c : ℚ) + 1 := Int.ceil_lt_add_one _
  have h1 : (n : ℚ) ≤ (q : ℚ) * (c : ℚ) := by
    rw [div_le_iff₀ hc0] at hle
    exact hle
  have h2 : (q : ℚ) * (c : ℚ) - (c : ℚ) < (n : ℚ) := by
    have : ((q : ℚ) - 1) * (c : ℚ) < (n : ℚ) := by
      rw [← lt_div_iff₀ hc0]
      linarith
    linarith [this]
  have h2' : q * c - c < n := by exact_mod_cast h2
  have h2'' : (q : ℚ) * (c : ℚ) - (c : ℚ) + 1 ≤ (n : ℚ) := by
    have : q * c - c + 1 ≤ n := by omega
    exact_mod_cast this
  rw [Int.floor_eq_iff]
  constructor
  · rw [le_div_iff₀ hc0]
    linarith
  · rw [div_lt_iff₀ hc0]
    linarith

/-- C5 counterexample: with sample rate 1, base chunk size 2, compression 1
and predicted duration one half, the code's latent length is zero while the
claimed ceiling formula gives one (the numerator duration times sample rate
is fractional, and the code floors before the ceiling effect can apply). -/
theorem latent_len_ceil_ctrex :
    latentLenZ ⟨1, 2, 1, 5⟩ [1 / 2] ≠
      ⌈((1 : ℚ) / 2 * ((1 : ℕ) : ℚ)) / (((2 * 1 : ℕ) : ℚ))⌉ := by
  have hL : latentLenZ ⟨1, 2, 1, 5⟩ [1 / 2] = 0 := by
    simp [latentLenZ, wavLenMax, jsMaxQ]
    norm_num [Int.floor_eq_iff]
  have hR : ⌈((1 : ℚ) / 2 * ((1 : ℕ) : ℚ)) / (((2 * 1 : ℕ) : ℚ))⌉ = 1 := by
    norm_num [Int.ceil_eq_iff]
  rw [hL, hR]
  decide

/-- C5 amended.  The noise tensor's time length is the floor of
(duration times sample rate plus chunk size minus one) over the chunk size,
which agrees with the claimed ceiling exactly when duration times sample
rate is an integer; the channel dimension is the configured latent dimension
times the compression factor, and the allocated tensor has those
dimensions. -/
theorem latent_shape_spec (noise : Nat → Nat → Nat → ℚ) (cfg : TTSConfig) (d : ℚ) (n : ℤ)
    (hcs : 0 < cfg.base_chunk_size * cfg.chunk_compress_factor)
    (hn : d * (cfg.sample_rate : ℚ) = (n : ℚ)) :
    latentLenZ cfg [d] =
      ⌈(d * (cfg.sample_rate : ℚ)) /
        ((cfg.base_chunk_size * cfg.chunk_compress_factor : ℕ) : ℚ)⌉ ∧
    latentDimOf cfg = cfg.latent_dim * cfg.chunk_compress_factor ∧
    (sampleNoisyLatent noise cfg [d]).1.length = 1 ∧
    ∀ batch ∈ (sampleNoisyLatent noise cfg [d]).1,
      batch.length = latentDimOf cfg ∧
      ∀ row ∈ batch, row.length = (latentLenZ cfg [d]).toNat := by
  refine ⟨?_, rfl, ?_, ?_⟩
  · have : latentLenZ cfg [d] =
        ⌊((n : ℚ) + ((cfg.base_chunk_size * cfg.chunk_compress_factor : ℕ) : ℚ) - 1) /
          ((cfg.base_chunk_size * cfg.chunk_compress_factor : ℕ) : ℚ)⌋ := by
      simp [latentLenZ, wavLenMax, jsMaxQ, hn]
    rw [this, floor_pred_div_eq_ceil n _ hcs, hn]
  · simp [sampleNoisyLatent]
  · intro batch hb
    simp only [sampleNoisyLatent, List.mem_map, List.mem_range] at hb
    obtain ⟨b, _, rfl⟩ := hb
    constructor
    · simp
    · intro row hr
      simp only [List.mem_map, List.mem_range] at hr
      obtain ⟨dch, _, rfl⟩ := hr
      simp

/-- Witness for C5 at an integral wav length: duration 3, sample rate 2,
chunk size 4. -/
theorem latent_shape_spec_witness :
    latentLenZ ⟨2, 4, 1, 5⟩ [3] =
      ⌈((3 : ℚ) * (((⟨2, 4, 1, 5⟩ : TTSConfig).sample_rate : ℕ) : ℚ)) /
        ((((⟨2, 4, 1, 5⟩ : TTSConfig).base_chunk_size *
          (⟨2, 4, 1, 5⟩ : TTSConfig).chunk_compress_factor : ℕ)) : ℚ)⌉ ∧
    latentDimOf ⟨2, 4, 1, 5⟩ = 5 := by
  have h := latent_shape_spec (fun _ _ _ => 0) ⟨2, 4, 1, 5⟩ 3 6 (by norm_num) (by norm_num)
  exact ⟨h.1, h.2.1⟩

/-! ## The latent mask has the same trailing length as the noise tensor -/

/-- Flooring the wav length before the latent-length division does not change
the result: the floor of (floor x + m) / c equals the floor of (x + m) / c
for an integer offset m and a positive integer divisor c. -/
lemma floor_fuse (x : ℚ) (m : ℤ) (c : ℕ) (hc : 0 < c) :
    ⌊((⌊x⌋ : ℚ) + (m : ℚ)) / (c : ℚ)⌋ = ⌊((x + (m : ℚ)) / (c : ℚ))⌋ := by
  have hc0 : (0 : ℚ) < (c : ℚ) := by exact_mod_cast hc
  apply le_antisymm
  · set z := ⌊((⌊x⌋ : ℚ) + (m : ℚ)) / (c : ℚ)⌋ with hz
    have h1 : (z : ℚ) ≤ ((⌊x⌋ : ℚ) + (m : ℚ)) / (c : ℚ) := Int.floor_le _
    rw [le_div_iff₀ hc0] at h1
    have h2 : ((z * c - m : ℤ) : ℚ) ≤ ((⌊x⌋ : ℤ) : ℚ) := by push_cast; linarith
    have h3 : (z * c - m : ℤ) ≤ ⌊x⌋ := by exact_mod_cast h2
    have h4 : ((z * c - m : ℤ) : ℚ) ≤ x := le_trans (by exact_mod_cast h3) (Int.floor_le x)
    apply Int.le_floor.mpr
    rw [le_div_iff₀ hc0]
    push_cast at h4 ⊢
    linarith
  · set z := ⌊(x + (m : ℚ)) / (c : ℚ)⌋ with hz
    have h1 : (z : ℚ) ≤ (x + (m : ℚ)) / (c : ℚ) := Int.floor_le _
    rw [le_div_iff₀ hc0] at h1
    have h2 : ((z * c - m : ℤ) : ℚ) ≤ x := by push_cast; linarith
    have h3 : (z * c - m : ℤ) ≤ ⌊x⌋ := Int.le_floor.mpr h2
    apply Int.le_floor.mpr
    rw [le_div_iff₀ hc0]
    have h4 : ((z * c - m : ℤ) : ℚ) ≤ ((⌊x⌋ : ℤ) : ℚ) := by exact_mod_cast h3
    push_cast at h4 ⊢
    linarith

/-- The per-duration latent length is monotone in the duration. -/
lemma latentLen_row_mono (sr c : ℕ) (hc : 0 < c) :
    Monotone (fun d : ℚ => latentLenOfWav ⌊d * (sr : ℚ)⌋ c) := by
  intro a b hab
  unfold latentLenOfWav
  apply Int.floor_mono
  have h1 : a * (sr : ℚ) ≤ b * (sr : ℚ) :=
    mul_le_mul_of_nonneg_right hab (by positivity)
  have h2 : (⌊a * (sr : ℚ)⌋ : ℚ) ≤ (⌊b * (sr : ℚ)⌋ : ℚ) := by
    exact_mod_cast Int.floor_mono h1
  have hc0 : (0 : ℚ) < (c : ℚ) := by exact_mod_cast hc
  rw [div_le_div_iff_of_pos_right hc0]
  linarith

/-- A monotone function commutes with a running maximum fold. -/
lemma foldl_max_map_mono {f : ℚ → ℤ} (hf : Monotone f) :
    ∀ (l : List ℚ) (a : ℚ), (l.map f).foldl max (f a) = f (l.foldl max a)
  | [], a => rfl
  | b :: l, a => by
    simp only [List.map_cons, List.foldl_cons]
    rw [← hf.map_max, foldl_max_map_mono hf l (max a b)]

/-- The trailing length of the latent mask equals the trailing length of the
noise tensor: the per-row floored wav lengths give latent lengths whose
maximum is exactly the floor the noise shape derivation computes from the
unfloored maximal wav length. -/
lemma mask_len_eq_noise_len (cfg : TTSConfig) (ds : List ℚ) (hds : ds ≠ [])
    (hcs : 0 < cfg.base_chunk_size * cfg.chunk_compress_factor) :
    jsMaxZ ((wavLengths cfg ds).map
        (fun w => latentLenOfWav w (cfg.base_chunk_size * cfg.chunk_compress_factor))) =
      latentLenZ cfg ds := by
  set c := cfg.base_chunk_size * cfg.chunk_compress_factor with hcdef
  have hfuse : ∀ d : ℚ, latentLenOfWav ⌊d * (cfg.sample_rate : ℚ)⌋ c =
      ⌊(d * (cfg.sample_rate : ℚ) + (c : ℚ) - 1) / (c : ℚ)⌋ := by
    intro d
    unfold latentLenOfWav
    have := floor_fuse (d * (cfg.sample_rate : ℚ)) ((c : ℤ) - 1) c hcs
    push_cast at this
    rw [show ((⌊d * (cfg.sample_rate : ℚ)⌋ : ℚ) + (c : ℚ) - 1) =
        ((⌊d * (cfg.sample_rate : ℚ)⌋ : ℚ) + ((c : ℚ) - 1)) by ring, this]
    ring_nf
  match ds, hds with
  | d :: ds', _ =>
    have hmap : wavLengths cfg (d :: ds') =
        (d :: ds').map (fun x => ⌊x * (cfg.sample_rate : ℚ)⌋) := rfl
    rw [hmap, List.map_map]
    have hmono := latentLen_row_mono cfg.sample_rate c hcs
    have hcomp : ((d :: ds').map
        ((fun w => latentLenOfWav w c) ∘ (fun x => ⌊x * (cfg.sample_rate : ℚ)⌋))) =
        (d :: ds').map (fun x => latentLenOfWav ⌊x * (cfg.sample_rate : ℚ)⌋ c) := rfl
    rw [hcomp]
    simp only [List.map_cons, jsMaxZ, jsMaxQ]
    rw [foldl_max_map_mono hmono ds' d]
    rw [hfuse]
    simp only [latentLenZ, wavLenMax, jsMaxQ]

/-- C6.  The latent validity mask has batch size rows, each a single row of
the same trailing length as the noise tensor, and after the element-wise
multiplication every padding position (time index at or beyond the row's
valid latent length) of the initial noise tensor is exactly zero. -/
theorem latent_mask_spec (noise : Nat → Nat → Nat → ℚ) (cfg : TTSConfig) (ds : List ℚ)
    (hds : ds ≠ []) (hcs : 0 < cfg.base_chunk_size * cfg.chunk_compress_factor) :
    (sampleNoisyLatent noise cfg ds).2.length = ds.length ∧
    (∀ row ∈ (sampleNoisyLatent noise cfg ds).2,
      row.length = 1 ∧ ∀ r ∈ row, r.length = (latentLenZ cfg ds).toNat) ∧
    (∀ b dch t, b < ds.length → dch < latentDimOf cfg → t < (latentLenZ cfg ds).toNat →
      latentLenOfWav ⌊ds.getD b 0 * (cfg.sample_rate : ℚ)⌋
          (cfg.base_chunk_size * cfg.chunk_compress_factor) ≤ (t : ℤ) →
      ((((sampleNoisyLatent noise cfg ds).1.getD b []).getD dch []).getD t 99) = 0) := by
  have hmlen := mask_len_eq_noise_len cfg ds hds hcs
  have hmask : (sampleNoisyLatent noise cfg ds).2 =
      lengthToMask ((wavLengths cfg ds).map
        (fun w => latentLenOfWav w (cfg.base_chunk_size * cfg.chunk_compress_factor))) none :=
    rfl
  set lens := (wavLengths cfg ds).map
      (fun w => latentLenOfWav w (cfg.base_chunk_size * cfg.chunk_compress_factor)) with hlens
  have hlenlen : lens.length = ds.length := by simp [hlens, wavLengths]
  have hmaskeq : (sampleNoisyLatent noise cfg ds).2 =
      lens.map (fun len =>
        [(List.range (latentLenZ cfg ds).toNat).map
          (fun (j : Nat) => if (j : ℤ) < len then (1 : ℚ) else 0)]) := by
    rw [hmask]
    unfold lengthToMask
    simp only [hmlen]
  refine ⟨?_, ?_, ?_⟩
  · rw [hmaskeq]
    simp [hlenlen]
  · intro row hrow
    rw [hmaskeq] at hrow
    simp only [List.mem_map] at hrow
    obtain ⟨len, _, rfl⟩ := hrow
    refine ⟨rfl, ?_⟩
    intro r hr
    simp only [List.mem_singleton] at hr
    subst hr
    simp
  · intro b dch t hb hd ht hpad
    have hbl : b < lens.length := by rwa [hlenlen]
    have hlget : lens.getD b 0 =
        latentLenOfWav ⌊ds.getD b 0 * (cfg.sample_rate : ℚ)⌋
          (cfg.base_chunk_size * cfg.chunk_compress_factor) := by
      rw [hlens]
      rw [getD_map_lt _ _ b 0 0 (by rwa [show (wavLengths cfg ds).length = ds.length by
        simp [wavLengths]])]
      unfold wavLengths
      rw [getD_map_lt _ _ b 0 0 hb]
    have hrowb : ((sampleNoisyLatent noise cfg ds).2.getD b []).getD 0 [] =
        (List.range (latentLenZ cfg ds).toNat).map
          (fun (j : Nat) => if (j : ℤ) < lens.getD b 0 then (1 : ℚ) else 0) := by
      rw [hmaskeq]
      rw [getD_map_lt _ _ b [] 0 hbl]
      rfl
    have hnoisy : (sampleNoisyLatent noise cfg ds).1 =
        (List.range ds.length).map (fun b0 =>
          let mrow := ((sampleNoisyLatent noise cfg ds).2.getD b0 []).getD 0 []
          (List.range (latentDimOf cfg)).map (fun dch0 =>
            (List.range (latentLenZ cfg ds).toNat).map (fun t0 =>
              let v := noise b0 dch0 t0
              if t0 < mrow.length then v * mrow.getD t0 0 else v))) := rfl
    rw [hnoisy]
    rw [getD_range_map _ _ b _ hb]
    simp only
    rw [getD_range_map _ _ dch _ hd, getD_range_map _ _ t _ ht]
    rw [hrowb]
    simp only [List.length_map, List.length_range, ht, if_true]
    rw [getD_range_map _ _ t _ ht]
    rw [hlget]
    rw [if_neg (by omega)]
    simp

/-- Witness for C6 at a two-row batch whose first row has one padding
position. -/
theorem latent_mask_spec_witness :
    (sampleNoisyLatent (fun _ _ _ => 5) ⟨1, 1, 1, 1⟩ [1, 2]).2.length = 2 ∧
    ((((sampleNoisyLatent (fun _ _ _ => 5) ⟨1, 1, 1, 1⟩ [1, 2]).1.getD 0 []).getD 0 []).getD 1 99)
      = 0 := by
  have h := latent_mask_spec (fun _ _ _ => 5) ⟨1, 1, 1, 1⟩ [1, 2] (by simp) (by norm_num)
  have hL : (latentLenZ ⟨1, 1, 1, 1⟩ [1, 2]).toNat = 2 := by
    have h2 : latentLenZ ⟨1, 1, 1, 1⟩ [1, 2] = 2 := by
      simp [latentLenZ, wavLenMax, jsMaxQ]
    rw [h2]
    rfl
  have hpad : latentLenOfWav ⌊(List.getD [(1 : ℚ), 2] 0 0) *
      (((⟨1, 1, 1, 1⟩ : TTSConfig).sample_rate : ℕ) : ℚ)⌋
      ((⟨1, 1, 1, 1⟩ : TTSConfig).base_chunk_size *
        (⟨1, 1, 1, 1⟩ : TTSConfig).chunk_compress_factor) ≤ ((1 : ℕ) : ℤ) := by
    have h1 : (List.getD [(1 : ℚ), 2] 0 0) = 1 := rfl
    rw [h1]
    norm_num [latentLenOfWav, Int.floor_eq_iff]
  exact ⟨h.1, h.2.2 0 0 1 (by norm_num) (by norm_num [latentDimOf])
    (by rw [hL]; norm_num) hpad⟩

/-! ## Segmenter lemmas: trimming and whitespace -/

lemma jsTrim_length_le (s : JStr) : (jsTrim s).length ≤ s.length := by
  unfold jsTrim
  rw [List.length_reverse]
  have h1 : ((s.dropWhile isJsWS).reverse.dropWhile isJsWS).length ≤
      (s.dropWhile isJsWS).reverse.length := (List.dropWhile_sublist _).length_le
  rw [List.length_reverse] at h1
  exact le_trans h1 (List.dropWhile_sublist _).length_le

lemma jsTrim_nil_of_ws {s : JStr} (h : ∀ c ∈ s, isJsWS c = true) : jsTrim s = [] := by
  unfold jsTrim
  rw [List.dropWhile_eq_nil_iff.mpr h]
  rfl

lemma ws_of_jsTrim_nil {s : JStr} (h : jsTrim s = []) : ∀ c ∈ s, isJsWS c = true := by
  unfold jsTrim at h
  rw [List.reverse_eq_nil_iff, List.dropWhile_eq_nil_iff] at h
  intro c hc
  rw [← List.takeWhile_append_dropWhile (p := isJsWS) (l := s)] at hc
  rcases List.mem_append.mp hc with h1 | h1
  · exact List.mem_takeWhile_imp h1
  · exact h c (List.mem_reverse.mpr h1)

lemma jsTrim_ws_imp_nil {s : JStr} (h : ∀ c ∈ jsTrim s, isJsWS c = true) : jsTrim s = [] := by
  by_contra hne
  have hu : ((s.dropWhile isJsWS).reverse.dropWhile isJsWS) ≠ [] := by
    intro heq
    apply hne
    unfold jsTrim
    rw [heq]
    rfl
  have hhead := List.head_dropWhile_not isJsWS (s.dropWhile isJsWS).reverse hu
  have hmem : ((s.dropWhile isJsWS).reverse.dropWhile isJsWS).head hu ∈ jsTrim s := by
    unfold jsTrim
    rw [List.mem_reverse]
    exact List.head_mem hu
  have hws := h _ hmem
  rw [hhead] at hws
  exact Bool.false_ne_true hws

lemma lastNL_lt : ∀ (l : JStr) (j : Nat), lastNL l = some j → j < l.length
  | [], j, h => by simp [lastNL] at h
  | c :: rest, j, h => by
    unfold lastNL at h
    cases hr : lastNL rest with
    | some j2 =>
      rw [hr] at h
      simp only [Option.some.injEq] at h
      subst h
      have := lastNL_lt rest j2 hr
      simp only [List.length_cons]
      omega
    | none =>
      rw [hr] at h
      by_cases hc : c == 0x0A
      · rw [if_pos hc] at h
        simp only [Option.some.injEq] at h
        subst h
        simp
      · rw [if_neg hc] at h
        exact absurd h (by simp)

lemma take_ws_of_le_takeWhile : ∀ (l : JStr) (k : Nat), k ≤ (l.takeWhile isJsWS).length →
    ∀ c ∈ l.take k, isJsWS c = true
  | _, 0, _ => by simp
  | [], k + 1, h => by simp at h
  | c0 :: rest, k + 1, h => by
    rw [List.takeWhile_cons] at h
    by_cases hc : isJsWS c0
    · rw [if_pos hc] at h
      simp only [List.length_cons] at h
      intro c hcm
      rw [List.take_succ_cons] at hcm
      rcases List.mem_cons.mp hcm with rfl | hcm
      · exact hc
      · exact take_ws_of_le_takeWhile rest k (Nat.le_of_succ_le_succ h) c hcm
    · rw [if_neg hc] at h
      simp at h

/-- If every paragraph-split part is whitespace-only, so was the input (the
separators consumed by the split are themselves whitespace). -/
lemma splitParaGo_ws : ∀ (fuel : Nat) (s acc : JStr),
    (∀ part ∈ splitParaGo fuel s acc, ∀ c ∈ part, isJsWS c = true) →
    ∀ c ∈ acc ++ s, isJsWS c = true
  | 0, s, acc, h => h (acc ++ s) (by simp [splitParaGo])
  | fuel + 1, [], acc, h => by
    intro c hc
    rw [List.append_nil] at hc
    exact h acc (by simp [splitParaGo]) c hc
  | fuel + 1, c0 :: rest, acc, h => by
    by_cases h0 : c0 = 0x0A
    · cases hln : lastNL (rest.takeWhile isJsWS) with
      | some j =>
        have hparts : splitParaGo (fuel + 1) (c0 :: rest) acc =
            acc :: splitParaGo fuel (rest.drop (j + 1)) [] := by
          simp [splitParaGo, h0, hln]
        have hacc : ∀ c ∈ acc, isJsWS c = true :=
          h acc (by rw [hparts]; exact List.mem_cons_self _ _)
        have hrec : ∀ c ∈ ([] : JStr) ++ rest.drop (j + 1), isJsWS c = true :=
          splitParaGo_ws fuel (rest.drop (j + 1)) [] (fun part hp => h part (by
            rw [hparts]
            exact List.mem_cons_of_mem _ hp))
        have htake : ∀ c ∈ rest.take (j + 1), isJsWS c = true :=
          take_ws_of_le_takeWhile rest (j + 1) (lastNL_lt _ j hln)
        intro c hc
        rcases List.mem_append.mp hc with hc | hc
        · exact hacc c hc
        · rcases List.mem_cons.mp hc with rfl | hc
          · rw [h0]
            rfl
          · rw [← List.take_append_drop (j + 1) rest] at hc
            rcases List.mem_append.mp hc with hc | hc
            · exact htake c hc
            · exact hrec c (by simpa using hc)
      | none =>
        have hparts : splitParaGo (fuel + 1) (c0 :: rest) acc =
            splitParaGo fuel rest (acc ++ [c0]) := by
          simp [splitParaGo, h0, hln]
        have hrec := splitParaGo_ws fuel rest (acc ++ [c0]) (fun part hp => h part (by
          rw [hparts]
          exact hp))
        intro c hc
        apply hrec
        simpa [List.append_assoc] using hc
    · have hparts : splitParaGo (fuel + 1) (c0 :: rest) acc =
          splitParaGo fuel rest (acc ++ [c0]) := by
        simp [splitParaGo, h0]
      have hrec := splitParaGo_ws fuel rest (acc ++ [c0]) (fun part hp => h part (by
        rw [hparts]
        exact hp))
      intro c hc
      apply hrec
      simpa [List.append_assoc] using hc

/-- If every sentence-split part is whitespace-only, so was the input. -/
lemma splitSentGo_ws : ∀ (fuel prev : Nat) (s acc : JStr),
    (∀ part ∈ splitSentGo fuel prev s acc, ∀ c ∈ part, isJsWS c = true) →
    ∀ c ∈ acc ++ s, isJsWS c = true
  | 0, _, s, acc, h => h (acc ++ s) (by simp [splitSentGo])
  | fuel + 1, prev, [], acc, h => by
    intro c hc
    rw [List.append_nil] at hc
    exact h acc (by simp [splitSentGo]) c hc
  | fuel + 1, prev, c0 :: rest, acc, h => by
    by_cases hsep : (isJsWS c0 && (prev == 0x2E || prev == 0x21 || prev == 0x3F)) = true
    · have hparts : splitSentGo (fuel + 1) prev (c0 :: rest) acc =
          acc :: splitSentGo fuel 0x20 (rest.dropWhile isJsWS) [] := by
        simp [splitSentGo, hsep]
      have hacc := h acc (by rw [hparts]; exact List.mem_cons_self _ _)
      have hrec := splitSentGo_ws fuel 0x20 (rest.dropWhile isJsWS) []
        (fun part hp => h part (by
          rw [hparts]
          exact List.mem_cons_of_mem _ hp))
      intro c hc
      rcases List.mem_append.mp hc with hc | hc
      · exact hacc c hc
      · rcases List.mem_cons.mp hc with rfl | hc
        · exact ((Bool.and_eq_true _ _).mp hsep).1
        · rw [← List.takeWhile_append_dropWhile (p := isJsWS) (l := rest)] at hc
          rcases List.mem_append.mp hc with hc | hc
          · exact List.mem_takeWhile_imp hc
          · exact hrec c (by simpa using hc)
    · have hparts : splitSentGo (fuel + 1) prev (c0 :: rest) acc =
          splitSentGo fuel c0 rest (acc ++ [c0]) := by
        simp only [splitSentGo]
        rw [if_neg hsep]
      have hrec := splitSentGo_ws fuel c0 rest (acc ++ [c0]) (fun part hp => h part (by
        rw [hparts]
        exact hp))
      intro c hc
      apply hrec
      simpa [List.append_assoc] using hc

/-! ## The greedy packing loop keeps every pushed chunk within the limit or
equal to a single trimmed sentence -/

/-- One packing step preserves the invariant: pushed chunks are within the
limit or are single trimmed sentences of S, and the running chunk is empty,
within the limit or a single sentence of S. -/
lemma packStep_inv (maxLen : Nat) (S : List JStr) (chunks : List JStr) (cur s : JStr)
    (hs : s ∈ S)
    (hchunks : ∀ c ∈ chunks, c.length ≤ maxLen ∨ ∃ x ∈ S, c = jsTrim x)
    (hcur : cur = [] ∨ cur.length ≤ maxLen ∨ cur ∈ S) :
    (∀ c ∈ (packStep maxLen (chunks, cur) s).1,
      c.length ≤ maxLen ∨ ∃ x ∈ S, c = jsTrim x) ∧
    ((packStep maxLen (chunks, cur) s).2 = [] ∨
      (packStep maxLen (chunks, cur) s).2.length ≤ maxLen ∨
      (packStep maxLen (chunks, cur) s).2 ∈ S) := by
  unfold packStep
  by_cases hfit : cur.length + s.length + 1 ≤ maxLen
  · rw [if_pos hfit]
    refine ⟨hchunks, Or.inr (Or.inl ?_)⟩
    by_cases hemp : cur.isEmpty
    · rw [if_pos hemp]
      simp only [List.length_append, List.length_nil]
      have : cur = [] := List.isEmpty_iff.mp hemp
      subst this
      simp only [List.length_nil] at hfit ⊢
      omega
    · rw [if_neg hemp]
      simp only [List.length_append, List.length_cons, List.length_nil]
      omega
  · rw [if_neg hfit]
    refine ⟨?_, Or.inr (Or.inr hs)⟩
    by_cases hemp : cur.isEmpty
    · rw [if_pos hemp]
      exact hchunks
    · rw [if_neg hemp]
      intro c hc
      rcases List.mem_append.mp hc with hc | hc
      · exact hchunks c hc
      · simp only [List.mem_singleton] at hc
        subst hc
        rcases hcur with rfl | hlen | hmem
        · simp at hemp
        · exact Or.inl (le_trans (jsTrim_length_le cur) hlen)
        · exact Or.inr ⟨cur, hmem, rfl⟩

/-- The whole packing fold preserves the invariant. -/
lemma pack_fold_inv (maxLen : Nat) (S : List JStr) :
    ∀ (sents : List JStr) (chunks : List JStr) (cur : JStr),
      (∀ x ∈ sents, x ∈ S) →
      (∀ c ∈ chunks, c.length ≤ maxLen ∨ ∃ x ∈ S, c = jsTrim x) →
      (cur = [] ∨ cur.length ≤ maxLen ∨ cur ∈ S) →
      (∀ c ∈ (sents.foldl (packStep maxLen) (chunks, cur)).1,
        c.length ≤ maxLen ∨ ∃ x ∈ S, c = jsTrim x) ∧
      ((sents.foldl (packStep maxLen) (chunks, cur)).2 = [] ∨
        (sents.foldl (packStep maxLen) (chunks, cur)).2.length ≤ maxLen ∨
        (sents.foldl (packStep maxLen) (chunks, cur)).2 ∈ S)
  | [], chunks, cur, _, hchunks, hcur => ⟨hchunks, hcur⟩
  | s :: sents, chunks, cur, hS, hchunks, hcur => by
    simp only [List.foldl_cons]
    obtain ⟨h1, h2⟩ := packStep_inv maxLen S chunks cur s (hS s (List.mem_cons_self _ _))
      hchunks hcur
    have := pack_fold_inv maxLen S sents (packStep maxLen (chunks, cur) s).1
      (packStep maxLen (chunks, cur) s).2
      (fun x hx => hS x (List.mem_cons_of_mem _ hx)) h1 h2
    simpa using this

/-- Every chunk produced for one paragraph is within the limit or is a single
trimmed sentence of the paragraph. -/
lemma chunkPara_bound (maxLen : Nat) (sents : List JStr) :
    ∀ c ∈ chunkPara maxLen sents, c.length ≤ maxLen ∨ ∃ x ∈ sents, c = jsTrim x := by
  obtain ⟨h1, h2⟩ := pack_fold_inv maxLen sents sents [] [] (fun x hx => hx)
    (by simp) (Or.inl rfl)
  intro c hc
  unfold chunkPara at hc
  by_cases hemp : (sents.foldl (packStep maxLen) ([], [])).2.isEmpty
  · rw [if_pos hemp] at hc
    exact h1 c hc
  · rw [if_neg hemp] at hc
    rcases List.mem_append.mp hc with hc | hc
    · exact h1 c hc
    · simp only [List.mem_singleton] at hc
      subst hc
      rcases h2 with hnil | hlen | hmem
      · exact absurd hnil (by simpa using hemp)
      · exact Or.inl (le_trans (jsTrim_length_le _) hlen)
      · exact Or.inr ⟨_, hmem, rfl⟩

/-- A packing step preserves having produced something. -/
lemma packStep_keeps (maxLen : Nat) (chunks : List JStr) (cur s : JStr)
    (h : chunks ≠ [] ∨ cur ≠ []) :
    (packStep maxLen (chunks, cur) s).1 ≠ [] ∨ (packStep maxLen (chunks, cur) s).2 ≠ [] := by
  unfold packStep
  by_cases hfit : cur.length + s.length + 1 ≤ maxLen
  · rw [if_pos hfit]
    rcases h with h | h
    · exact Or.inl h
    · refine Or.inr ?_
      intro heq
      exact h (List.append_eq_nil.mp (List.append_eq_nil.mp heq).1).1
  · rw [if_neg hfit]
    by_cases hemp : cur.isEmpty
    · rw [if_pos hemp]
      rcases h with h | h
      · exact Or.inl h
      · exact absurd (List.isEmpty_iff.mp hemp) h
    · rw [if_neg hemp]
      exact Or.inl (by simp)

/-- A packing step on a non-empty sentence establishes having produced
something, whatever the incoming state. -/
lemma packStep_starts (maxLen : Nat) (chunks : List JStr) (cur s : JStr) (hs : s ≠ []) :
    (packStep maxLen (chunks, cur) s).1 ≠ [] ∨ (packStep maxLen (chunks, cur) s).2 ≠ [] := by
  unfold packStep
  by_cases hfit : cur.length + s.length + 1 ≤ maxLen
  · rw [if_pos hfit]
    refine Or.inr ?_
    intro heq
    exact hs (List.append_eq_nil.mp heq).2
  · rw [if_neg hfit]
    exact Or.inr hs

lemma pack_fold_keeps (maxLen : Nat) :
    ∀ (sents : List JStr) (chunks : List JStr) (cur : JStr),
      (chunks ≠ [] ∨ cur ≠ []) →
      ((sents.foldl (packStep maxLen) (chunks, cur)).1 ≠ [] ∨
        (sents.foldl (packStep maxLen) (chunks, cur)).2 ≠ [])
  | [], chunks, cur, h => h
  | s :: sents, chunks, cur, h => by
    simp only [List.foldl_cons]
    have := pack_fold_keeps maxLen sents (packStep maxLen (chunks, cur) s).1
      (packStep maxLen (chunks, cur) s).2 (packStep_keeps maxLen chunks cur s h)
    simpa using this

lemma pack_fold_starts (maxLen : Nat) :
    ∀ (sents : List JStr) (chunks : List JStr) (cur : JStr),
      (∃ s ∈ sents, s ≠ []) →
      ((sents.foldl (packStep maxLen) (chunks, cur)).1 ≠ [] ∨
        (sents.foldl (packStep maxLen) (chunks, cur)).2 ≠ [])
  | [], _, _, h => absurd h (by simp)
  | s :: sents, chunks, cur, h => by
    simp only [List.foldl_cons]
    by_cases hs : s = []
    · have hex : ∃ x ∈ sents, x ≠ [] := by
        rcases h with ⟨x, hx, hxne⟩
        rcases List.mem_cons.mp hx with rfl | hx
        · exact absurd hs hxne
        · exact ⟨x, hx, hxne⟩
      have := pack_fold_starts maxLen sents (packStep maxLen (chunks, cur) s).1
        (packStep maxLen (chunks, cur) s).2 hex
      simpa using this
    · have := pack_fold_keeps maxLen sents (packStep maxLen (chunks, cur) s).1
        (packStep maxLen (chunks, cur) s).2 (packStep_starts maxLen chunks cur s hs)
      simpa using this

/-- A paragraph holding a non-empty sentence contributes at least one chunk. -/
lemma chunkPara_ne_nil (maxLen : Nat) (sents : List JStr) (h : ∃ s ∈ sents, s ≠ []) :
    chunkPara maxLen sents ≠ [] := by
  unfold chunkPara
  obtain hres := pack_fold_starts maxLen sents [] [] h
  by_cases hemp : (sents.foldl (packStep maxLen) ([], [])).2.isEmpty
  · rw [if_pos hemp]
    rcases hres with h1 | h1
    · exact h1
    · exact absurd (List.isEmpty_iff.mp hemp) h1
  · rw [if_neg hemp]
    simp

/-- The chunk accumulation of chunkText is a flattened map over the kept
paragraphs. -/
lemma chunkText_fold_eq (maxLen : Nat) :
    ∀ (paras : List JStr) (acc : List JStr),
      paras.foldl (fun acc p =>
        acc ++ (if (jsTrim p).isEmpty then [] else chunkPara maxLen (splitSent (jsTrim p)))) acc =
        acc ++ (paras.map (fun p =>
          if (jsTrim p).isEmpty then [] else chunkPara maxLen (splitSent (jsTrim p)))).flatten
  | [], acc => by simp
  | p :: paras, acc => by
    simp only [List.foldl_cons, List.map_cons, List.flatten_cons]
    rw [chunkText_fold_eq maxLen paras]
    simp [List.append_assoc]

/-- C3.  The Segmenter never returns an empty unit list, and every returned
unit is within the configured maximum length except that a unit equal to a
single (trimmed) sentence of some paragraph may exceed it and stand alone. -/
theorem chunkText_units_spec (text : JStr) (maxLen : Nat) :
    chunkText text maxLen ≠ [] ∧
    ∀ c ∈ chunkText text maxLen,
      c.length ≤ maxLen ∨
      ∃ p ∈ splitPara (jsTrim text), ∃ s ∈ splitSent (jsTrim p), c = jsTrim s := by
  have hfold := chunkText_fold_eq maxLen
    ((splitPara (jsTrim text)).filter (fun p => !(jsTrim p).isEmpty)) []
  constructor
  · unfold chunkText
    by_cases hemp : (((splitPara (jsTrim text)).filter (fun p => !(jsTrim p).isEmpty)).foldl
        (fun acc p =>
          acc ++ (if (jsTrim p).isEmpty then [] else chunkPara maxLen (splitSent (jsTrim p))))
        []).isEmpty
    · rw [if_pos hemp]
      simp
    · rw [if_neg hemp]
      simpa using hemp
  · intro c hc
    unfold chunkText at hc
    by_cases hemp : (((splitPara (jsTrim text)).filter (fun p => !(jsTrim p).isEmpty)).foldl
        (fun acc p =>
          acc ++ (if (jsTrim p).isEmpty then [] else chunkPara maxLen (splitSent (jsTrim p))))
        []).isEmpty
    · -- fallback branch: the whole trimmed text is the single unit, and it
      -- can only be reached when the trimmed text is empty
      rw [if_pos hemp] at hc
      simp only [List.mem_singleton] at hc
      subst hc
      left
      have hnil : jsTrim text = [] := by
        rw [hfold] at hemp
        simp only [List.nil_append, List.isEmpty_eq_true, List.flatten_eq_nil_iff] at hemp
        -- every kept paragraph would contribute a non-empty chunk list
        have hall : ∀ p ∈ splitPara (jsTrim text), jsTrim p = [] := by
          intro p hp
          by_contra hpne
          have hkept : p ∈ (splitPara (jsTrim text)).filter (fun p => !(jsTrim p).isEmpty) :=
            List.mem_filter.mpr ⟨hp, by simpa using hpne⟩
          have hcontrib := hemp _ (List.mem_map.mpr ⟨p, hkept, rfl⟩)
          rw [if_neg (by simpa using hpne)] at hcontrib
          -- the paragraph has a sentence with a non-whitespace character
          have hsent : ∃ s ∈ splitSent (jsTrim p), s ≠ [] := by
            by_contra hnone
            push_neg at hnone
            have hwsall : ∀ part ∈ splitSent (jsTrim p), ∀ c ∈ part, isJsWS c = true := by
              intro part hpart c hcpart
              rw [hnone part hpart] at hcpart
              exact absurd hcpart (List.not_mem_nil c)
            have := splitSentGo_ws ((jsTrim p).length + 1) 0x20 (jsTrim p) [] hwsall
            exact hpne (jsTrim_ws_imp_nil (by simpa using this))
          exact chunkPara_ne_nil maxLen _ hsent hcontrib
        have hws : ∀ c ∈ jsTrim text, isJsWS c = true := by
          have := splitParaGo_ws ((jsTrim text).length + 1) (jsTrim text) []
            (fun part hpart => ws_of_jsTrim_nil (hall part hpart))
          simpa using this
        exact jsTrim_ws_imp_nil hws
      rw [hnil]
      simp
    · rw [if_neg hemp] at hc
      rw [hfold] at hc
      simp only [List.nil_append, List.mem_flatten, List.mem_map] at hc
      obtain ⟨l, ⟨p, hp, rfl⟩, hcl⟩ := hc
      by_cases hpe : (jsTrim p).isEmpty
      · rw [if_pos hpe] at hcl
        exact absurd hcl (List.not_mem_nil c)
      · rw [if_neg hpe] at hcl
        rcases chunkPara_bound maxLen (splitSent (jsTrim p)) c hcl with hlen | ⟨s, hsm, rfl⟩
        · exact Or.inl hlen
        · exact Or.inr ⟨p, (List.mem_filter.mp hp).1, s, hsm, rfl⟩

/-- Witness for C3: a two-sentence text that fits in one unit under the
default worker limit. -/
theorem chunkText_units_spec_witness :
    chunkText (toU "Hello there. This is a test.") 300 ≠ [] ∧
    ((toU "Hello there. This is a test.").length ≤ 300 ∨
      ∃ p ∈ splitPara (jsTrim (toU "Hello there. This is a test.")),
        ∃ s ∈ splitSent (jsTrim p), toU "Hello there. This is a test." = jsTrim s) := by
  have h := chunkText_units_spec (toU "Hello there. This is a test.") 300
  exact ⟨h.1, h.2 (toU "Hello there. This is a test.") (by decide)⟩

/-! ## Normalizer step lemmas -/

lemma hasSub_singleton : ∀ (s : JStr) (k : Nat), hasSub [k] s = true ↔ k ∈ s
  | [], k => by simp [hasSub]
  | c :: rest, k => by
    simp [hasSub, isStart, hasSub_singleton rest k]

lemma hasSub_head_mem : ∀ (s : JStr) (a : Nat) (t : JStr), hasSub (a :: t) s = true → a ∈ s
  | [], a, t, h => by simp [hasSub] at h
  | c :: rest, a, t, h => by
    rw [hasSub] at h
    rcases (Bool.or_eq_true _ _).mp h with h | h
    · rw [isStart] at h
      have hb := ((Bool.and_eq_true _ _).mp h).1
      have heq : a = c := by simpa using hb
      exact heq ▸ List.mem_cons_self _ _
    · exact List.mem_cons_of_mem _ (hasSub_head_mem rest a t h)

lemma replaceAllGo_id (pat rep : JStr) :
    ∀ (fuel : Nat) (s : JStr), hasSub pat s = false → replaceAllGo pat rep fuel s = s
  | 0, s, _ => rfl
  | fuel + 1, [], _ => rfl
  | fuel + 1, c :: rest, h => by
    rw [hasSub] at h
    obtain ⟨h1, h2⟩ := Bool.or_eq_false_iff.mp h
    rw [replaceAllGo]
    rw [if_neg (by simp [h1])]
    rw [replaceAllGo_id pat rep fuel rest h2]

lemma replaceAll_id (pat rep s : JStr) (h : hasSub pat s = false) :
    replaceAll pat rep s = s := replaceAllGo_id pat rep s.length s h

lemma applyTable_id (tbl : List (JStr × JStr)) (s : JStr)
    (h : ∀ kv ∈ tbl, hasSub kv.1 s = false) : applyTable tbl s = s := by
  induction tbl with
  | nil => rfl
  | cons kv tbl ih =>
    unfold applyTable at ih ⊢
    simp only [List.foldl_cons]
    rw [replaceAll_id kv.1 kv.2 s (h kv (List.mem_cons_self _ _))]
    exact ih (fun kv2 h2 => h kv2 (List.mem_cons_of_mem _ h2))

lemma stripEmoji_id : ∀ (s : JStr),
    (∀ c ∈ s, isHiSurr c = false ∧ emojiCP c = false) → stripEmoji s = s
  | [], _ => rfl
  | [c1], h => by
    obtain ⟨h1, h2⟩ := h c1 (by simp)
    simp [stripEmoji, h1, h2]
  | c1 :: c2 :: rest, h => by
    obtain ⟨h1, h2⟩ := h c1 (by simp)
    rw [stripEmoji, if_neg (by simp [h1]), if_neg (by simp [h2])]
    congr 1
    exact stripEmoji_id (c2 :: rest) (fun c hc => h c (List.mem_cons_of_mem _ hc))

lemma stripSurrogates_id : ∀ (s : JStr), (∀ c ∈ s, isHiSurr c = false) →
    stripSurrogates s = s
  | [], _ => rfl
  | [c], _ => rfl
  | c1 :: c2 :: rest, h => by
    rw [stripSurrogates, if_neg (by simp [h c1 (by simp)])]
    congr 1
    exact stripSurrogates_id (c2 :: rest) (fun c hc => h c (List.mem_cons_of_mem _ hc))

lemma dedupLoop_id (q : Nat) : ∀ (fuel : Nat) (s : JStr), hasSub [q, q] s = false →
    dedupLoop q fuel s = s
  | 0, _, _ => rfl
  | fuel + 1, s, h => by rw [dedupLoop, if_neg (by simp [h])]

lemma dedupQuotes_id (q : Nat) (s : JStr) (h : hasSub [q, q] s = false) :
    dedupQuotes q s = s := dedupLoop_id q s.length s h

lemma collapseWS_id : ∀ (fuel : Nat) (s : JStr),
    (∀ c ∈ s, isJsWS c = true → c = 0x20) → hasSub [0x20, 0x20] s = false →
    collapseWS fuel s = s
  | 0, _, _, _ => rfl
  | fuel + 1, [], _, _ => rfl
  | fuel + 1, c :: rest, hws, hdbl => by
    have hrest : hasSub [0x20, 0x20] rest = false := by
      rw [hasSub] at hdbl
      exact (Bool.or_eq_false_iff.mp hdbl).2
    rw [collapseWS]
    by_cases hc : isJsWS c
    · rw [if_pos hc]
      have hc20 : c = 0x20 := hws c (by simp) hc
      subst hc20
      have hdw : rest.dropWhile isJsWS = rest := by
        cases rest with
        | nil => rfl
        | cons d rest2 =>
          rw [List.dropWhile_cons, if_neg ?_]
          intro hd
          have hd20 : d = 0x20 := hws d (by simp) hd
          subst hd20
          rw [hasSub] at hdbl
          simp [isStart] at hdbl
      rw [hdw]
      congr 1
      exact collapseWS_id fuel rest (fun c hc h2 => hws c (List.mem_cons_of_mem _ hc) h2) hrest
    · rw [if_neg hc]
      congr 1
      exact collapseWS_id fuel rest (fun c hc h2 => hws c (List.mem_cons_of_mem _ hc) h2) hrest

lemma jsTrim_id (s : JStr)
    (hhead : ∀ c, s.head? = some c → isJsWS c = false)
    (hlast : ∀ c, s.getLast? = some c → isJsWS c = false) : jsTrim s = s := by
  unfold jsTrim
  have h1 : s.dropWhile isJsWS = s := by
    cases s with
    | nil => rfl
    | cons c rest =>
      rw [List.dropWhile_cons, if_neg ?_]
      intro h
      have := hhead c rfl
      rw [h] at this
      exact absurd this (by simp)
  rw [h1]
  have h2 : s.reverse.dropWhile isJsWS = s.reverse := by
    cases hs : s.reverse with
    | nil => rfl
    | cons c rest =>
      rw [List.dropWhile_cons, if_neg ?_]
      intro h
      have hl : s.getLast? = some c := by
        rw [List.getLast?_eq_head?_reverse, hs]
        rfl
      have := hlast c hl
      rw [h] at this
      exact absurd this (by simp)
  rw [h2, List.reverse_reverse]

lemma addTail_id (s : JStr) (h : hasTailPunct s = true) : addTail s = s := by
  unfold addTail
  rw [if_pos h]

lemma mem_replaceAllGo (pat rep : JStr) : ∀ (fuel : Nat) (s : JStr) (c : Nat),
    c ∈ replaceAllGo pat rep fuel s → c ∈ s ∨ c ∈ rep
  | 0, s, c, h => Or.inl h
  | fuel + 1, [], c, h => absurd h (List.not_mem_nil c)
  | fuel + 1, c0 :: rest, c, h => by
    rw [replaceAllGo] at h
    by_cases hcond : (!pat.isEmpty && isStart pat (c0 :: rest)) = true
    · rw [if_pos hcond] at h
      rcases List.mem_append.mp h with h | h
      · exact Or.inr h
      · rcases mem_replaceAllGo pat rep fuel _ c h with h | h
        · exact Or.inl (List.mem_of_mem_drop h)
        · exact Or.inr h
    · rw [if_neg hcond] at h
      rcases List.mem_cons.mp h with rfl | h
      · exact Or.inl (List.mem_cons_self _ _)
      · rcases mem_replaceAllGo pat rep fuel rest c h with h | h
        · exact Or.inl (List.mem_cons_of_mem _ h)
        · exact Or.inr h

lemma mem_applyTable (tbl : List (JStr × JStr)) : ∀ (s : JStr) (c : Nat),
    c ∈ applyTable tbl s → c ∈ s ∨ ∃ kv ∈ tbl, c ∈ kv.2 := by
  induction tbl with
  | nil => intro s c h; exact Or.inl h
  | cons kv tbl ih =>
    intro s c h
    unfold applyTable at h
    simp only [List.foldl_cons] at h
    rcases ih (replaceAll kv.1 kv.2 s) c h with h2 | ⟨kv2, hkv2, hc2⟩
    · rcases mem_replaceAllGo kv.1 kv.2 s.length s c h2 with h3 | h3
      · exact Or.inl h3
      · exact Or.inr ⟨kv, List.mem_cons_self _ _, h3⟩
    · exact Or.inr ⟨kv2, List.mem_cons_of_mem _ hkv2, hc2⟩

/-! ## C9: the normalizer is not idempotent; it fixes normal-form strings -/

/-- A string in the worker normalizer's normal form: ASCII only, none of the
replacement-table or symbol or expression trigger characters, no
space-before-punctuation pair, no doubled quote, whitespace only as single
interior spaces, and a terminal punctuation character at the end. -/
def NormalFormB (s : JStr) : Bool :=
  s.all (fun c => decide (c < 0x80)) &&
  ([0x5F, 0x60, 0x5B, 0x5D, 0x7C, 0x2F, 0x23, 0x5C, 0x40].all
    (fun k => !(hasSub [k] s))) &&
  (!(hasSub (toU "e.g.,") s)) && (!(hasSub (toU "i.e.,") s)) &&
  (spacingFixes.all (fun kv => !(hasSub kv.1 s))) &&
  (!(hasSub [0x22, 0x22] s)) && (!(hasSub [0x27, 0x27] s)) &&
  s.all (fun c => !(isJsWS c) || c == 0x20) &&
  (!(hasSub [0x20, 0x20] s)) &&
  (match s.head? with | some c => !(c == 0x20) | none => true) &&
  (match s.getLast? with | some c => !(c == 0x20) | none => true) &&
  hasTailPunct s

/-- C9 counterexample: the worker normalizer is not idempotent.  On the input
consisting of a, line feed, period, the whitespace collapse (which runs after
the space-before-punctuation fixes) produces a space, period; a second
application removes that space. -/
theorem preprocess_not_idempotent :
    preprocessTextW (fun l => l) (preprocessTextW (fun l => l) (toU "a\n.")) ≠
      preprocessTextW (fun l => l) (toU "a\n.") := by
  decide

/-- C9 amended.  The normalizer is the identity (hence idempotent) on every
string in its normal form; idempotence fails in general because the
whitespace collapse can create new space-punctuation pairs (see the
counterexample). -/
theorem preprocess_fixed_on_normal_form (nfkd : JStr → JStr) (s : JStr)
    (hn : nfkd s = s) (hnf : NormalFormB s = true) : preprocessTextW nfkd s = s := by
  simp only [NormalFormB, Bool.and_eq_true] at hnf
  obtain ⟨⟨⟨⟨⟨⟨⟨⟨⟨⟨⟨hascii, hban⟩, heg⟩, hie⟩, hspc⟩, hq22⟩, hq27⟩, hwsp⟩, hdbl⟩,
    hhd⟩, hlst⟩, htail⟩ := hnf
  simp only [List.all_eq_true, decide_eq_true_eq] at hascii
  simp only [List.all_eq_true, Bool.not_eq_true'] at hban hspc
  rw [Bool.not_eq_true'] at heg hie hq22 hq27 hdbl
  simp only [List.all_eq_true] at hwsp
  have hnotmem : ∀ k : Nat, 0x80 ≤ k → hasSub [k] s = false := by
    intro k hk
    cases hcase : hasSub [k] s with
    | false => rfl
    | true =>
      have hmem := (hasSub_singleton s k).mp hcase
      have := hascii k hmem
      omega
  have hwsc : ∀ c ∈ s, isJsWS c = true → c = 0x20 := by
    intro c hc hws
    have := hwsp c hc
    rw [hws] at this
    simpa using this
  have hbanned : ∀ k ∈ ([0x5F, 0x60, 0x5B, 0x5D, 0x7C, 0x2F, 0x23, 0x5C, 0x40] : List Nat),
      k ∉ s := by
    intro k hk hmem
    have := hban k hk
    rw [(hasSub_singleton s k).mpr hmem] at this
    exact absurd this (by simp)
  unfold preprocessTextW
  rw [hn]
  dsimp only
  rw [stripEmoji_id s (fun c hc => by
    have h80 := hascii c hc
    refine ⟨?_, ?_⟩
    · simp only [isHiSurr]
      simp only [Bool.and_eq_true, decide_eq_true_eq, not_and, Bool.and_eq_false_iff,
        decide_eq_false_iff_not]
      left
      omega
    · simp only [emojiCP]
      simp only [Bool.or_eq_false_iff, Bool.and_eq_false_iff, decide_eq_false_iff_not]
      refine ⟨⟨⟨⟨⟨⟨⟨⟨⟨⟨⟨?_, ?_⟩, ?_⟩, ?_⟩, ?_⟩, ?_⟩, ?_⟩, ?_⟩, ?_⟩, ?_⟩, ?_⟩, ?_⟩ <;>
        (left; omega))]
  have hkey : ∀ k : Nat,
      (0x80 ≤ k ∨ k ∈ ([0x5F, 0x60, 0x5B, 0x5D, 0x7C, 0x2F, 0x23, 0x5C, 0x40] : List Nat)) →
      hasSub [k] s = false := by
    intro k hk
    rcases hk with hk | hk
    · exact hnotmem k hk
    · cases hcase : hasSub [k] s with
      | false => rfl
      | true => exact absurd ((hasSub_singleton s k).mp hcase) (hbanned k hk)
  rw [applyTable_id replacements s ?hrep]
  case hrep =>
    intro kv hkv
    simp only [replacements, List.mem_cons, List.not_mem_nil, or_false] at hkv
    rcases hkv with rfl|rfl|rfl|rfl|rfl|rfl|rfl|rfl|rfl|rfl|rfl|rfl|rfl|rfl|rfl|rfl|rfl|rfl <;>
      exact hkey _ (by decide)
  rw [show stripCombiningListed s = s from List.filter_eq_self.mpr (fun c hc => by
    have h80 := hascii c hc
    simp only [Bool.not_eq_true']
    cases hcon : combiningList.contains c with
    | false => rfl
    | true =>
      have : c ∈ combiningList := by simpa using hcon
      simp only [combiningList, List.mem_cons, List.not_mem_nil, or_false] at this
      omega)]
  rw [show stripSymbols s = s from List.filter_eq_self.mpr (fun c hc => by
    have h80 := hascii c hc
    have h5c : c ≠ 0x5C := fun heq => hbanned 0x5C (by decide) (heq ▸ hc)
    simp only [Bool.not_eq_true', Bool.or_eq_false_iff, beq_eq_false_iff_ne]
    refine ⟨⟨⟨⟨?_, ?_⟩, ?_⟩, ?_⟩, ?_⟩ <;> omega)]
  unfold finishCommon
  dsimp only
  rw [applyTable_id exprReplacements s ?hexpr]
  case hexpr =>
    intro kv hkv
    simp only [exprReplacements, List.mem_cons, List.not_mem_nil, or_false] at hkv
    rcases hkv with rfl|rfl|rfl
    · exact hkey 0x40 (by decide)
    · exact heg
    · exact hie
  rw [applyTable_id spacingFixes s hspc]
  rw [dedupQuotes_id 0x22 s hq22, dedupQuotes_id 0x27 s hq27]
  rw [dedupQuotes_id 0x60 s ?h60]
  case h60 =>
    cases hcase : hasSub [0x60, 0x60] s with
    | false => rfl
    | true => exact absurd (hasSub_head_mem s 0x60 [0x60] hcase) (hbanned _ (by decide))
  rw [collapseWS_id s.length s hwsc hdbl]
  rw [jsTrim_id s ?hh ?hl]
  case hh =>
    intro c hc
    have hmem : c ∈ s := by
      obtain ⟨ys, hys⟩ := List.head?_eq_some_iff.mp hc
      rw [hys]
      exact List.mem_cons_self _ _
    rw [hc] at hhd
    simp only [Bool.not_eq_true'] at hhd
    cases hcase : isJsWS c with
    | false => rfl
    | true =>
      have := hwsc c hmem hcase
      subst this
      simp at hhd
  case hl =>
    intro c hc
    have hmem : c ∈ s := List.mem_of_getLast?_eq_some hc
    rw [hc] at hlst
    simp only [Bool.not_eq_true'] at hlst
    cases hcase : isJsWS c with
    | false => rfl
    | true =>
      have := hwsc c hmem hcase
      subst this
      simp at hlst
  exact addTail_id s htail

/-- Witness for C9 on a concrete normal-form string. -/
theorem preprocess_fixed_on_normal_form_witness :
    preprocessTextW (fun l => l) (toU "Hello world.") = toU "Hello world." :=
  preprocess_fixed_on_normal_form (fun l => l) (toU "Hello world.") rfl (by decide)

/-! ## C10: the two normalizer variants differ, and where they agree -/

/-- Code-unit strings on which the two normalizers' differing strip steps are
all inert: no surrogates (hence no astral code points), nothing in the
U+0300 combining block, nothing in the U+2600 to U+27BF symbol ranges, and
every entry a genuine UTF-16 code unit. -/
def AgreeableB (s : JStr) : Bool :=
  s.all (fun c => decide (c < 0x10000) && decide (¬(0xD800 ≤ c ∧ c ≤ 0xDFFF)) &&
    decide (¬(0x300 ≤ c ∧ c ≤ 0x36F)) && decide (¬(0x2600 ≤ c ∧ c ≤ 0x27BF)))

/-- C10 counterexample: on the letter a followed by a combining grave accent
U+0300, the standalone normalizer strips the mark while the worker normalizer
keeps it, so the outputs differ. -/
theorem normalizers_differ_ctrex :
    preprocessTextA (fun l => l) [0x61, 0x300] ≠
      preprocessTextW (fun l => l) [0x61, 0x300] := by
  decide

lemma isHiSurr_false_of (c : Nat) (h : ¬(0xD800 ≤ c ∧ c ≤ 0xDFFF)) : isHiSurr c = false := by
  simp only [isHiSurr, Bool.and_eq_false_iff, decide_eq_false_iff_not]
  rcases Nat.lt_or_ge c 0xD800 with h2 | h2
  · left
    omega
  · right
    omega

lemma emojiCP_false_of (c : Nat) (hlt : c < 0x10000)
    (hsym : ¬(0x2600 ≤ c ∧ c ≤ 0x27BF)) : emojiCP c = false := by
  simp only [emojiCP, Bool.or_eq_false_iff, Bool.and_eq_false_iff, decide_eq_false_iff_not]
  refine ⟨⟨⟨⟨⟨⟨⟨⟨⟨⟨⟨?_, ?_⟩, ?_⟩, ?_⟩, ?_⟩, ?_⟩, ?_⟩, ?_⟩, ?_⟩, ?_⟩, ?_⟩, ?_⟩
  · left; omega
  · left; omega
  · left; omega
  · left; omega
  · left; omega
  · left; omega
  · left; omega
  · left; omega
  · left; omega
  · rcases Nat.lt_or_ge c 0x2600 with h | h
    · left; omega
    · right; omega
  · rcases Nat.lt_or_ge c 0x2700 with h | h
    · left; omega
    · right; omega
  · left; omega

/-- C10 amended.  The two normalizers compute the same output on every input
whose NFKD image avoids the code units where their strip sets differ:
surrogate pairs and astral code points, the U+0300 combining block, and the
U+2600 to U+27BF symbol ranges.  In general they differ (see the
counterexample). -/
theorem normalizers_agree_on_common (nfkd : JStr → JStr) (s : JStr)
    (hag : AgreeableB (nfkd s) = true) :
    preprocessTextA nfkd s = preprocessTextW nfkd s := by
  simp only [AgreeableB, List.all_eq_true, Bool.and_eq_true, decide_eq_true_eq] at hag
  set x := nfkd s with hx
  have hcond : ∀ c ∈ x, c < 0x10000 ∧ ¬(0xD800 ≤ c ∧ c ≤ 0xDFFF) ∧
      ¬(0x300 ≤ c ∧ c ≤ 0x36F) ∧ ¬(0x2600 ≤ c ∧ c ≤ 0x27BF) := by
    intro c hc
    obtain ⟨⟨⟨h1, h2⟩, h3⟩, h4⟩ := hag c hc
    exact ⟨h1, h2, h3, h4⟩
  unfold preprocessTextA preprocessTextW
  dsimp only
  rw [stripSurrogates_id x (fun c hc => isHiSurr_false_of c (hcond c hc).2.1)]
  rw [stripEmoji_id x (fun c hc => ⟨isHiSurr_false_of c (hcond c hc).2.1,
    emojiCP_false_of c (hcond c hc).1 (hcond c hc).2.2.2⟩)]
  have hymem : ∀ c ∈ applyTable replacements x, ¬(0x300 ≤ c ∧ c ≤ 0x36F) := by
    intro c hc
    rcases mem_applyTable replacements x c hc with h | ⟨kv, hkv, hcv⟩
    · exact (hcond c h).2.2.1
    · simp only [replacements, List.mem_cons, List.not_mem_nil, or_false] at hkv
      rcases hkv with rfl|rfl|rfl|rfl|rfl|rfl|rfl|rfl|rfl|rfl|rfl|rfl|rfl|rfl|rfl|rfl|rfl|rfl <;>
        (simp only [List.mem_singleton] at hcv; omega)
  rw [show stripCombiningFull (applyTable replacements x) = applyTable replacements x from
    List.filter_eq_self.mpr (fun c hc => by
      have := hymem c hc
      simp only [Bool.not_eq_true', Bool.and_eq_false_iff, decide_eq_false_iff_not]
      rcases Nat.lt_or_ge c 0x300 with h | h
      · left
        omega
      · right
        omega)]
  rw [show stripCombiningListed (applyTable replacements x) = applyTable replacements x from
    List.filter_eq_self.mpr (fun c hc => by
      have := hymem c hc
      simp only [Bool.not_eq_true']
      cases hcon : combiningList.contains c with
      | false => rfl
      | true =>
        have hmem : c ∈ combiningList := by simpa using hcon
        simp only [combiningList, List.mem_cons, List.not_mem_nil, or_false] at hmem
        omega)]

/-- Witness for C10 on a concrete common string. -/
theorem normalizers_agree_on_common_witness :
    preprocessTextA (fun l => l) (toU "Hi.") = preprocessTextW (fun l => l) (toU "Hi.") :=
  normalizers_agree_on_common (fun l => l) (toU "Hi.") (by decide)

end DubStack
